import Mathlib

/-!
# Verification of the waveform-playlist timeline engine

A shallow embedding of the `@waveform-playlist` engine core:

* the pure clip operations of `packages/engine/src/operations/clipOperations.ts`
  (`constrainClipDrag`, `constrainBoundaryTrim`, `splitClip`, `canSplitAt`);
* the pure timeline operations (`calculateDuration`, `findClosestZoomIndex`,
  `clampSeekPosition`) in their current version;
* the stateful `PlaylistEngine` mutation methods (`moveClip`, `trimClip`,
  `splitClip`, `removeTrack`, `zoomIn`, `zoomOut`, `play`), modelled as
  functions from an engine state to a new engine state together with a
  `Bool` that records whether a `statechange` event was emitted.

All sample positions are integers in the source (`Int` here); times in
seconds are rationals (`ℚ`).  Asynchronous adapter calls are modelled by
passing the adapter's result (`Except String Unit`) as an explicit argument.
-/

/-- Fade descriptor (`{ duration, type }` in the source).  Only carried
through the clip operations, never computed with. -/
structure Fade where
  duration : ℚ
  shape : String
deriving DecidableEq

/-- `AudioClip` from `@waveform-playlist/core`: a contiguous playable region
of one source audio buffer placed on a track's timeline.  The decoded audio
buffer and the precomputed waveform data are opaque references, modelled as
`Option Nat` handles. -/
structure AudioClip where
  id : String
  startSample : Int
  durationSamples : Int
  offsetSamples : Int
  sourceDurationSamples : Int
  sampleRate : Int
  gain : ℚ
  name : Option String
  color : Option String
  fadeIn : Option Fade
  fadeOut : Option Fade
  audioBuffer : Option Nat
  waveformData : Option Nat
deriving DecidableEq

/-- `ClipTrack` from `@waveform-playlist/core`. -/
structure ClipTrack where
  id : String
  name : String
  clips : List AudioClip
  muted : Bool
  soloed : Bool
  volume : ℚ
  pan : ℚ
deriving DecidableEq

/-- End of a clip on the timeline: `startSample + durationSamples`. -/
def clipEnd (c : AudioClip) : Int :=
  c.startSample + c.durationSamples

/-- Modelled from the spec: `sortClipsByTime` from `@waveform-playlist/core`
is not under `src/` (only its callers are).  The spec says clips "are sorted
by `startSample` whenever collision math needs ordering"; modelled as a
stable insertion sort by `startSample` (matching a stable
`sort((a, b) => a.startSample - b.startSample)`). -/
def insertByStart (c : AudioClip) : List AudioClip → List AudioClip
  | [] => [c]
  | x :: xs => if c.startSample < x.startSample then c :: x :: xs else x :: insertByStart c xs

/-- Modelled from the spec: see `insertByStart`. -/
def sortClipsByTime : List AudioClip → List AudioClip
  | [] => []
  | c :: cs => insertByStart c (sortClipsByTime cs)

/-- `constrainClipDrag` (clipOperations.ts lines 21–51): clamp a drag delta
so the clip cannot go before sample 0, overlap the previous clip, or overlap
the next clip.  `clipIndex` is the index of the dragged clip in
`sortedClips`; at every call site of the source it is in range, so the
out-of-range `none` branches (which would fault in the source) are
unreachable. -/
def constrainClipDrag (clip : AudioClip) (deltaSamples : Int)
    (sortedClips : List AudioClip) (clipIndex : Nat) : Int :=
  let delta := max deltaSamples (-clip.startSample)
  let delta :=
    if 0 < clipIndex then
      match sortedClips[clipIndex - 1]? with
      | some prevClip =>
          max delta (prevClip.startSample + prevClip.durationSamples - clip.startSample)
      | none => delta
    else delta
  let delta :=
    if clipIndex + 1 < sortedClips.length then
      match sortedClips[clipIndex + 1]? with
      | some nextClip =>
          min delta (nextClip.startSample - (clip.startSample + clip.durationSamples))
      | none => delta
    else delta
  delta

/-- Which clip edge a trim applies to (`'left' | 'right'` in the source). -/
inductive Boundary where
  | left
  | right
deriving DecidableEq

/-- `constrainBoundaryTrim` (clipOperations.ts lines 70–118). -/
def constrainBoundaryTrim (clip : AudioClip) (deltaSamples : Int) (boundary : Boundary)
    (sortedClips : List AudioClip) (clipIndex : Nat) (minDurationSamples : Int) : Int :=
  match boundary with
  | .left =>
    let delta := max deltaSamples (-clip.startSample)
    let delta := max delta (-clip.offsetSamples)
    let delta :=
      if 0 < clipIndex then
        match sortedClips[clipIndex - 1]? with
        | some prevClip =>
            max delta (prevClip.startSample + prevClip.durationSamples - clip.startSample)
        | none => delta
      else delta
    min delta (clip.durationSamples - minDurationSamples)
  | .right =>
    let delta := max deltaSamples (minDurationSamples - clip.durationSamples)
    let delta :=
      min delta (clip.sourceDurationSamples - clip.offsetSamples - clip.durationSamples)
    if clipIndex + 1 < sortedClips.length then
      match sortedClips[clipIndex + 1]? with
      | some nextClip =>
          min delta (nextClip.startSample - clip.startSample - clip.durationSamples)
      | none => delta
    else delta

/-- Modelled from the spec: `createClip` from `@waveform-playlist/core` is
not under `src/` (only its callers are).  It builds a clip from the given
fields; per the spec, split "creates" two new clips, and the fresh unique id
that `createClip` generates is modelled by an explicit `id` argument
supplied by the caller. -/
def createClip (id : String) (startSample durationSamples offsetSamples : Int)
    (sampleRate sourceDurationSamples : Int) (gain : ℚ)
    (name color : Option String) (fadeIn fadeOut : Option Fade)
    (audioBuffer waveformData : Option Nat) : AudioClip :=
  { id := id
    startSample := startSample
    durationSamples := durationSamples
    offsetSamples := offsetSamples
    sourceDurationSamples := sourceDurationSamples
    sampleRate := sampleRate
    gain := gain
    name := name
    color := color
    fadeIn := fadeIn
    fadeOut := fadeOut
    audioBuffer := audioBuffer
    waveformData := waveformData }

/-- A JavaScript truthiness test on an optional string: `clip.name ? … : undefined`
is false for both `undefined` and the empty string. -/
def jsTruthyName (s : Option String) : Bool :=
  match s with
  | some n => n ≠ ""
  | none => false

/-- `splitClip` (clipOperations.ts lines 142–181): split a clip into two at
a timeline sample position.  The left clip keeps the original fade-in, the
right clip the original fade-out; both share the audio-buffer and
waveform-data references.  `leftId`/`rightId` stand for the fresh ids
`createClip` generates (see `createClip`). -/
def splitClip (clip : AudioClip) (splitSample : Int) (leftId rightId : String) :
    AudioClip × AudioClip :=
  let leftDuration := splitSample - clip.startSample
  let rightDuration := clip.durationSamples - leftDuration
  let leftName := if jsTruthyName clip.name then clip.name.map (fun n => n ++ " (1)") else none
  let rightName := if jsTruthyName clip.name then clip.name.map (fun n => n ++ " (2)") else none
  let left := createClip leftId clip.startSample leftDuration clip.offsetSamples
    clip.sampleRate clip.sourceDurationSamples clip.gain leftName clip.color
    clip.fadeIn none clip.audioBuffer clip.waveformData
  let right := createClip rightId splitSample rightDuration
    (clip.offsetSamples + leftDuration) clip.sampleRate clip.sourceDurationSamples
    clip.gain rightName clip.color none clip.fadeOut clip.audioBuffer clip.waveformData
  (left, right)

/-- The engine imports the pure split as `splitClip as splitClipOp`. -/
def splitClipOp : AudioClip → Int → String → String → AudioClip × AudioClip :=
  splitClip

/-- `canSplitAt` (clipOperations.ts lines 194–207): the split point must be
strictly inside the clip and both halves must meet the minimum duration. -/
def canSplitAt (clip : AudioClip) (sample : Int) (minDurationSamples : Int) : Bool :=
  let clipEndPos := clip.startSample + clip.durationSamples
  if sample ≤ clip.startSample ∨ clipEndPos ≤ sample then false
  else
    let leftDuration := sample - clip.startSample
    let rightDuration := clipEndPos - sample
    decide (minDurationSamples ≤ leftDuration) && decide (minDurationSamples ≤ rightDuration)

/-- `calculateDuration` (timelineOperations.ts, current version): total
timeline duration in seconds, the maximum clip end over all tracks,
converted with each clip's own sample rate. -/
def calculateDuration (tracks : List ClipTrack) : ℚ :=
  tracks.foldl
    (fun acc track =>
      track.clips.foldl
        (fun acc2 clip =>
          max acc2 (((clip.startSample + clip.durationSamples : Int) : ℚ) / (clip.sampleRate : ℚ)))
        acc)
    0

/-- `clampSeekPosition` (timelineOperations.ts, current version). -/
def clampSeekPosition (time duration : ℚ) : ℚ :=
  max 0 (min time duration)

/-- Inner loop of `findClosestZoomIndex` (current version, a `for` loop from
index 1 carrying the best index and best absolute difference; only a
strictly smaller difference replaces the current best). -/
def closestZoomGo (target : Int) : List Int → Nat → Nat → Nat → Nat
  | [], _, bestIndex, _ => bestIndex
  | z :: rest, i, bestIndex, bestDiff =>
    let diff := (z - target).natAbs
    if diff < bestDiff then closestZoomGo target rest (i + 1) i diff
    else closestZoomGo target rest (i + 1) bestIndex bestDiff

/-- `findClosestZoomIndex` (timelineOperations.ts current version, also at
useLoopState.ts lines 308–323): index of the zoom-table entry closest to the
target by absolute difference; an empty table yields 0. -/
def findClosestZoomIndex (targetSamplesPerPixel : Int) (zoomLevels : List Int) : Nat :=
  match zoomLevels with
  | [] => 0
  | z0 :: rest => closestZoomGo targetSamplesPerPixel rest 1 0 ((z0 - targetSamplesPerPixel).natAbs)

/-- `zoomLevels.indexOf(targetSamplesPerPixel)`: first index of an exact match,
modelled as `Option Nat` in place of the JS `-1` sentinel. -/
def legacyZoomIndexOf (target : Int) : List Int → Option Nat
  | [] => none
  | z :: rest =>
    if z = target then some 0
    else (legacyZoomIndexOf target rest).map (fun n => n + 1)

/-- The stale `findClosestZoomIndex` still present at
engine/src/operations/timelineOperations.ts lines 32–38: the exact-match index,
or the middle of the table when there is none.  Kept here only to document its
divergence from the current implementation. -/
def findClosestZoomIndexLegacy (targetSamplesPerPixel : Int) (zoomLevels : List Int) : Nat :=
  match legacyZoomIndexOf targetSamplesPerPixel zoomLevels with
  | some i => i
  | none => zoomLevels.length / 2

/-- `Math.floor(DEFAULT_MIN_DURATION_SECONDS * sampleRate)` with
`DEFAULT_MIN_DURATION_SECONDS = 0.1`: the floor of one tenth of the sample
rate, written with integer floor division. -/
def minDurationSamples (sampleRate : Int) : Int :=
  Int.fdiv sampleRate 10

/-- `track.clips.findIndex(c => c.id === clipId)` together with the
subsequent `track.clips[clipIndex]` access: the index of the first clip with
the given id, and that clip. -/
def findClipIndex (clips : List AudioClip) (clipId : String) : Option (Nat × AudioClip) :=
  match clips with
  | [] => none
  | c :: rest =>
    if c.id = clipId then some (0, c)
    else (findClipIndex rest clipId).map (fun p => (p.1 + 1, p.2))

/-- `list.map((c, i) => …)`: a map that also passes the element index,
starting from `i0`. -/
def mapWithIndexFrom (f : Nat → AudioClip → AudioClip) (i0 : Nat) :
    List AudioClip → List AudioClip
  | [] => []
  | c :: rest => f i0 c :: mapWithIndexFrom f (i0 + 1) rest

/-- `list.map((c, i) => …)` from index 0. -/
def mapWithIndex (f : Nat → AudioClip → AudioClip) (clips : List AudioClip) :
    List AudioClip :=
  mapWithIndexFrom f 0 clips

/-- `newClips.splice(clipIndex, 1, left, right)`: replace the element at
`i` by the two given clips. -/
def spliceReplaceTwo (clips : List AudioClip) (i : Nat) (l r : AudioClip) :
    List AudioClip :=
  clips.take i ++ l :: r :: clips.drop (i + 1)

/-- The id `createClip` generates for the `n`-th clip it creates: an opaque
fresh unique string, modelled injectively (see `createClip`). -/
def genClipId (n : Nat) : String :=
  String.mk (List.replicate (n + 1) 'g')

/-- The mutable fields of `PlaylistEngine` that the verified methods touch.
`freshClipIds` models the state of `createClip`'s unique-id generator: all
ids `genClipId k` with `k ≥ freshClipIds` are still unused.  The
`selectionStart`/`selectionEnd`/`loopStart`/`loopEnd`/`isLoopEnabled` fields
are declared in `EngineState` (types.ts lines 28–53); their mutators are
modelled from the spec below. -/
structure Engine where
  tracks : List ClipTrack
  currentTime : ℚ
  isPlaying : Bool
  selectedTrackId : Option String
  sampleRate : Int
  zoomLevels : List Int
  zoomIndex : Nat
  selectionStart : ℚ
  selectionEnd : ℚ
  loopStart : ℚ
  loopEnd : ℚ
  isLoopEnabled : Bool
  freshClipIds : Nat
deriving DecidableEq

/-- `PlaylistEngine.moveClip` (PlaylistEngine.ts lines 514–543).  The
returned `Bool` is whether a `statechange` event was emitted.
`Math.floor` on the integer sum is the identity and is omitted. -/
def Engine.moveClip (e : Engine) (trackId clipId : String) (deltaSamples : Int) :
    Engine × Bool :=
  match e.tracks.find? (fun t => t.id = trackId) with
  | none => (e, false)
  | some track =>
    match findClipIndex track.clips clipId with
    | none => (e, false)
    | some (clipIndex, clip) =>
      let sortedClips := sortClipsByTime track.clips
      let sortedIndex := sortedClips.findIdx (fun c => c.id = clipId)
      let constrainedDelta := constrainClipDrag clip deltaSamples sortedClips sortedIndex
      if constrainedDelta = 0 then (e, false)
      else
        let newTracks := e.tracks.map (fun t =>
          if t.id = trackId then
            { t with clips := mapWithIndex (fun i c =>
                if i = clipIndex then { c with startSample := c.startSample + constrainedDelta }
                else c) t.clips }
          else t)
        ({ e with tracks := newTracks }, true)

/-- `PlaylistEngine.trimClip` (PlaylistEngine.ts lines 569–616). -/
def Engine.trimClip (e : Engine) (trackId clipId : String) (boundary : Boundary)
    (deltaSamples : Int) : Engine × Bool :=
  match e.tracks.find? (fun t => t.id = trackId) with
  | none => (e, false)
  | some track =>
    match findClipIndex track.clips clipId with
    | none => (e, false)
    | some (clipIndex, clip) =>
      let sortedClips := sortClipsByTime track.clips
      let sortedIndex := sortedClips.findIdx (fun c => c.id = clipId)
      let minDuration := minDurationSamples e.sampleRate
      let constrained :=
        constrainBoundaryTrim clip deltaSamples boundary sortedClips sortedIndex minDuration
      if constrained = 0 then (e, false)
      else
        let newTracks := e.tracks.map (fun t =>
          if t.id = trackId then
            { t with clips := mapWithIndex (fun i c =>
                if i = clipIndex then
                  match boundary with
                  | .left =>
                    { c with
                      startSample := c.startSample + constrained
                      offsetSamples := c.offsetSamples + constrained
                      durationSamples := c.durationSamples - constrained }
                  | .right => { c with durationSamples := c.durationSamples + constrained }
                else c) t.clips }
          else t)
        ({ e with tracks := newTracks }, true)

/-- `PlaylistEngine.splitClip` (PlaylistEngine.ts lines 545–567).  The two
fresh clip ids `createClip` would generate are drawn from the engine's
id-generator state. -/
def Engine.splitClip (e : Engine) (trackId clipId : String) (atSample : Int) :
    Engine × Bool :=
  match e.tracks.find? (fun t => t.id = trackId) with
  | none => (e, false)
  | some track =>
    match findClipIndex track.clips clipId with
    | none => (e, false)
    | some (clipIndex, clip) =>
      let minDuration := minDurationSamples e.sampleRate
      if ¬ canSplitAt clip atSample minDuration then (e, false)
      else
        let lr := splitClipOp clip atSample (genClipId e.freshClipIds)
          (genClipId (e.freshClipIds + 1))
        let newTracks := e.tracks.map (fun t =>
          if t.id = trackId then
            { t with clips := spliceReplaceTwo t.clips clipIndex lr.1 lr.2 }
          else t)
        ({ e with tracks := newTracks, freshClipIds := e.freshClipIds + 2 }, true)

/-- `PlaylistEngine.removeTrack` (PlaylistEngine.ts lines 495–503): no-op
without emission when the id is absent; clears the selection when the
removed track was selected. -/
def Engine.removeTrack (e : Engine) (trackId : String) : Engine × Bool :=
  if e.tracks.any (fun t => t.id = trackId) then
    let newTracks := e.tracks.filter (fun t => ¬ t.id = trackId)
    let newSelected :=
      if e.selectedTrackId = some trackId then none else e.selectedTrackId
    ({ e with tracks := newTracks, selectedTrackId := newSelected }, true)
  else (e, false)

/-- `PlaylistEngine.zoomIn` (PlaylistEngine.ts lines 693–698). -/
def Engine.zoomIn (e : Engine) : Engine × Bool :=
  if 0 < e.zoomIndex then ({ e with zoomIndex := e.zoomIndex - 1 }, true)
  else (e, false)

/-- `PlaylistEngine.zoomOut` (PlaylistEngine.ts lines 700–705). -/
def Engine.zoomOut (e : Engine) : Engine × Bool :=
  if e.zoomIndex < e.zoomLevels.length - 1 then ({ e with zoomIndex := e.zoomIndex + 1 }, true)
  else (e, false)

/-- `PlaylistEngine.play` (PlaylistEngine.ts lines 622–636).  The adapter's
asynchronous `play()` outcome is passed explicitly: on a rejection the
`await` re-throws, so the method returns the error before the
`this._isPlaying = true` line runs.  Without an adapter the await is
skipped.  The `Except` value is the promise returned to the caller. -/
def Engine.play (e : Engine) (hasAdapter : Bool) (adapterPlayResult : Except String Unit)
    (startTime : Option ℚ) : Engine × Except String Unit :=
  let e1 :=
    match startTime with
    | some t => { e with currentTime := clampSeekPosition t (calculateDuration e.tracks) }
    | none => e
  if hasAdapter then
    match adapterPlayResult with
    | Except.error err => (e1, Except.error err)
    | Except.ok _ => ({ e1 with isPlaying := true }, Except.ok ())
  else ({ e1 with isPlaying := true }, Except.ok ())

/-- Modelled from the spec: `PlaylistEngine.setSelection` is not under
`src/` (only its declaration in `EngineState` and its browser-hook callers
are).  Per the spec, it normalizes so the stored pair always satisfies
`start <= end`. -/
def Engine.setSelection (e : Engine) (a b : ℚ) : Engine :=
  { e with selectionStart := min a b, selectionEnd := max a b }

/-- Modelled from the spec: `PlaylistEngine.setLoopRegion` is not under
`src/` (only its declaration in `EngineState` and its browser-hook callers
are).  Per the spec, it normalizes so the stored pair always satisfies
`start <= end`. -/
def Engine.setLoopRegion (e : Engine) (a b : ℚ) : Engine :=
  { e with loopStart := min a b, loopEnd := max a b }

/-- One clip-editing call, for stating properties of call sequences. -/
inductive EngineOp where
  | move (trackId clipId : String) (deltaSamples : Int)
  | trim (trackId clipId : String) (boundary : Boundary) (deltaSamples : Int)
  | split (trackId clipId : String) (atSample : Int)
deriving DecidableEq

/-- Apply one clip-editing call to the engine state. -/
def Engine.applyOp (e : Engine) : EngineOp → Engine
  | .move trackId clipId d => (e.moveClip trackId clipId d).1
  | .trim trackId clipId b d => (e.trimClip trackId clipId b d).1
  | .split trackId clipId s => (e.splitClip trackId clipId s).1

/-- Apply a sequence of clip-editing calls, first element first. -/
def Engine.applyOps (e : Engine) (ops : List EngineOp) : Engine :=
  ops.foldl Engine.applyOp e

/-! ## Well-formedness predicates

The spec's data-model invariant for a clip (§3): nonnegative start and
offset, duration at least the minimum, and the used region inside the
source audio.  A track is well formed when its clips satisfy the clip
invariant, have pairwise-distinct ids, and are pairwise non-overlapping. -/

/-- Clip `a` ends at or before clip `b` starts. -/
def sep (a b : AudioClip) : Prop :=
  clipEnd a ≤ b.startSample

instance (a b : AudioClip) : Decidable (sep a b) :=
  inferInstanceAs (Decidable (clipEnd a ≤ b.startSample))

/-- Two clips do not overlap (in either order). -/
def symmSep (a b : AudioClip) : Prop :=
  sep a b ∨ sep b a

instance (a b : AudioClip) : Decidable (symmSep a b) :=
  inferInstanceAs (Decidable (sep a b ∨ sep b a))

/-- Comparison used by the sort. -/
def startLE (a b : AudioClip) : Prop :=
  a.startSample ≤ b.startSample

instance (a b : AudioClip) : Decidable (startLE a b) :=
  inferInstanceAs (Decidable (a.startSample ≤ b.startSample))

/-- No two clips of the list overlap. -/
def PairSep (clips : List AudioClip) : Prop :=
  clips.Pairwise symmSep

instance (clips : List AudioClip) : Decidable (PairSep clips) :=
  inferInstanceAs (Decidable (clips.Pairwise symmSep))

/-- The claim's phrasing of the track invariant: when the clips are sorted
by `startSample`, each one ends at or before the next begins
(`startSample[i] + durationSamples[i] <= startSample[i+1]`). -/
def nonOverlapSorted (clips : List AudioClip) : Prop :=
  List.Chain' sep (sortClipsByTime clips)

/-- Executable check for the sorted-chain condition. -/
def chainSepB : List AudioClip → Bool
  | [] => true
  | [_] => true
  | a :: b :: rest => decide (sep a b) && chainSepB (b :: rest)

theorem chainSepB_iff : ∀ l : List AudioClip, chainSepB l = true ↔ List.Chain' sep l := by
  intro l
  induction l with
  | nil => simp [chainSepB]
  | cons a rest ih =>
    cases rest with
    | nil => simp [chainSepB]
    | cons b rrest =>
      simp only [chainSepB, Bool.and_eq_true, decide_eq_true_eq, List.chain'_cons]
      exact and_congr Iff.rfl ih

instance (clips : List AudioClip) : Decidable (nonOverlapSorted clips) :=
  decidable_of_iff (chainSepB (sortClipsByTime clips) = true)
    (chainSepB_iff (sortClipsByTime clips))

/-- The spec's clip invariant (§3). -/
def clipWF (minDur : Int) (c : AudioClip) : Prop :=
  0 ≤ c.startSample ∧ 0 ≤ c.offsetSamples ∧ minDur ≤ c.durationSamples ∧
    c.offsetSamples + c.durationSamples ≤ c.sourceDurationSamples

instance (minDur : Int) (c : AudioClip) : Decidable (clipWF minDur c) :=
  inferInstanceAs (Decidable (0 ≤ c.startSample ∧ 0 ≤ c.offsetSamples ∧
    minDur ≤ c.durationSamples ∧
    c.offsetSamples + c.durationSamples ≤ c.sourceDurationSamples))

/-- The id of this clip is not one of the still-unused generated ids
(`genClipId k` for `k ≥ n`). -/
def clipIdFresh (n : Nat) (c : AudioClip) : Prop :=
  ∀ k, c.id = genClipId k → k < n

/-- The spec's track invariant, over a track's clip list. -/
def clipsWF (minDur : Int) (n : Nat) (clips : List AudioClip) : Prop :=
  (∀ c ∈ clips, clipWF minDur c ∧ clipIdFresh n c) ∧
    (clips.map (fun c => c.id)).Nodup ∧ PairSep clips

/-- Engine-level well-formedness: positive minimum duration, distinct track
ids, and every track well formed. -/
def EngineWF (e : Engine) : Prop :=
  0 < minDurationSamples e.sampleRate ∧
    (e.tracks.map (fun t => t.id)).Nodup ∧
    ∀ t ∈ e.tracks, clipsWF (minDurationSamples e.sampleRate) e.freshClipIds t.clips

/-! ## Facts about `sortClipsByTime` -/

theorem perm_insertByStart (c : AudioClip) (l : List AudioClip) :
    List.Perm (insertByStart c l) (c :: l) := by
  induction l with
  | nil => simp [insertByStart]
  | cons x xs ih =>
    by_cases h : c.startSample < x.startSample
    · simp [insertByStart, h]
    · simp only [insertByStart, if_neg h]
      exact List.Perm.trans (List.Perm.cons x ih) (List.Perm.swap c x xs)

theorem perm_sortClipsByTime (l : List AudioClip) :
    List.Perm (sortClipsByTime l) l := by
  induction l with
  | nil => simp [sortClipsByTime]
  | cons c cs ih =>
    exact List.Perm.trans (perm_insertByStart c _) (List.Perm.cons c ih)

theorem mem_insertByStart {b c : AudioClip} {l : List AudioClip} :
    b ∈ insertByStart c l ↔ b = c ∨ b ∈ l := by
  rw [(perm_insertByStart c l).mem_iff]; simp

theorem symmSep_symm : Symmetric symmSep := by
  intro a b h
  exact h.elim Or.inr Or.inl

theorem pairwise_startLE_insertByStart (c : AudioClip) {l : List AudioClip}
    (h : l.Pairwise startLE) : (insertByStart c l).Pairwise startLE := by
  induction l with
  | nil => simp [insertByStart, List.Pairwise]
  | cons x xs ih =>
    rcases List.pairwise_cons.mp h with ⟨hx, hxs⟩
    by_cases hlt : c.startSample < x.startSample
    · simp only [insertByStart, if_pos hlt]
      refine List.pairwise_cons.mpr ⟨?_, h⟩
      intro b hb
      rcases List.mem_cons.mp hb with hb | hb
      · subst hb; exact le_of_lt hlt
      · exact le_trans (le_of_lt hlt) (hx b hb)
    · simp only [insertByStart, if_neg hlt]
      refine List.pairwise_cons.mpr ⟨?_, ih hxs⟩
      intro b hb
      rcases mem_insertByStart.mp hb with hb | hb
      · subst hb; exact le_of_not_lt hlt
      · exact hx b hb

theorem pairwise_startLE_sort (l : List AudioClip) :
    (sortClipsByTime l).Pairwise startLE := by
  induction l with
  | nil => simp [sortClipsByTime, List.Pairwise]
  | cons c cs ih => exact pairwise_startLE_insertByStart c ih

/-! ## Between `Chain' sep` on the sorted list and `PairSep` -/

theorem sep_all_of_chain' {a : AudioClip} {l : List AudioClip}
    (hd : ∀ c ∈ a :: l, 0 ≤ c.durationSamples)
    (h : List.Chain' sep (a :: l)) : ∀ b ∈ l, sep a b := by
  induction l generalizing a with
  | nil => intro b hb; cases hb
  | cons x xs ih =>
    intro b hb
    have hax : sep a x := (List.chain'_cons.mp h).1
    rcases List.mem_cons.mp hb with hb | hb
    · subst hb; exact hax
    · have hx : sep x b := by
        refine ih ?_ (List.chain'_cons.mp h).2 b hb
        intro c hc; exact hd c (by simpa using Or.inr hc)
      have hxd : 0 ≤ x.durationSamples := hd x (by simp)
      unfold sep clipEnd at *
      have : x.startSample ≤ x.startSample + x.durationSamples := by linarith
      linarith

theorem pairwise_sep_of_chain' {l : List AudioClip}
    (hd : ∀ c ∈ l, 0 ≤ c.durationSamples)
    (h : List.Chain' sep l) : l.Pairwise sep := by
  induction l with
  | nil => exact List.Pairwise.nil
  | cons a xs ih =>
    refine List.pairwise_cons.mpr ⟨sep_all_of_chain' hd h, ?_⟩
    exact ih (fun c hc => hd c (List.mem_cons_of_mem a hc)) h.tail

theorem pairwise_sep_of_sorted {l : List AudioClip}
    (hsorted : l.Pairwise startLE) (hps : l.Pairwise symmSep)
    (hd : ∀ c ∈ l, 0 < c.durationSamples) : l.Pairwise sep := by
  have := List.Pairwise.and hsorted hps
  refine this.imp_of_mem ?_
  intro a b ha hb hab
  rcases hab with ⟨hle, hs | hs⟩
  · exact hs
  · exfalso
    have hb' : 0 < b.durationSamples := hd b hb
    unfold sep clipEnd startLE at *
    linarith

/-- From the raw-list pairwise non-overlap to the claim's sorted-chain
phrasing. -/
theorem nonOverlapSorted_of_pairSep {l : List AudioClip}
    (hps : PairSep l) (hd : ∀ c ∈ l, 0 < c.durationSamples) :
    nonOverlapSorted l := by
  have hperm := perm_sortClipsByTime l
  have hps' : (sortClipsByTime l).Pairwise symmSep :=
    (hperm.pairwise_iff (fun h => symmSep_symm h)).mpr hps
  have hd' : ∀ c ∈ sortClipsByTime l, 0 < c.durationSamples :=
    fun c hc => hd c (hperm.mem_iff.mp hc)
  exact (pairwise_sep_of_sorted (pairwise_startLE_sort l) hps' hd').chain'

/-- Conversely, the sorted-chain phrasing gives raw-list pairwise
non-overlap (durations need only be nonnegative here). -/
theorem pairSep_of_nonOverlapSorted {l : List AudioClip}
    (h : nonOverlapSorted l) (hd : ∀ c ∈ l, 0 ≤ c.durationSamples) :
    PairSep l := by
  have hperm := perm_sortClipsByTime l
  have hd' : ∀ c ∈ sortClipsByTime l, 0 ≤ c.durationSamples :=
    fun c hc => hd c (hperm.mem_iff.mp hc)
  have : (sortClipsByTime l).Pairwise sep := pairwise_sep_of_chain' hd' h
  exact (hperm.pairwise_iff (fun h => symmSep_symm h)).mp (this.imp Or.inl)

/-! ## Decomposition lemmas for the lookups used by the engine methods -/

theorem find?_decomp {p : ClipTrack → Bool} {l : List ClipTrack} {t : ClipTrack}
    (h : l.find? p = some t) :
    ∃ pre post, l = pre ++ t :: post ∧ (∀ b ∈ pre, p b = false) ∧ p t = true := by
  induction l with
  | nil => simp [List.find?] at h
  | cons x xs ih =>
    by_cases hx : p x
    · rw [List.find?_cons_of_pos _ hx] at h
      have hxt : x = t := Option.some.inj h
      subst hxt
      exact ⟨[], xs, rfl, by simp, hx⟩
    · rw [List.find?_cons_of_neg _ (by simpa using hx)] at h
      obtain ⟨pre, post, hl, hpre, hp⟩ := ih h
      refine ⟨x :: pre, post, by simp [hl], ?_, hp⟩
      intro b hb
      rcases List.mem_cons.mp hb with hb | hb
      · subst hb; simpa using hx
      · exact hpre b hb

theorem findClipIndex_decomp {l : List AudioClip} {clipId : String} {i : Nat}
    {c : AudioClip} (h : findClipIndex l clipId = some (i, c)) :
    ∃ pre post, l = pre ++ c :: post ∧ pre.length = i ∧
      (∀ b ∈ pre, b.id ≠ clipId) ∧ c.id = clipId := by
  induction l generalizing i with
  | nil => simp [findClipIndex] at h
  | cons x xs ih =>
    by_cases hx : x.id = clipId
    · simp only [findClipIndex, if_pos hx] at h
      have h2 : ((0 : Nat), x) = (i, c) := Option.some.inj h
      have hi : (0 : Nat) = i := congrArg Prod.fst h2
      have hc : x = c := congrArg Prod.snd h2
      subst hc
      subst hi
      exact ⟨[], xs, rfl, rfl, by simp, hx⟩
    · simp only [findClipIndex, if_neg hx] at h
      rcases ho : findClipIndex xs clipId with _ | p
      · rw [ho] at h; simp at h
      · rw [ho] at h
        obtain ⟨j, d⟩ := p
        have h2 : (j + 1, d) = (i, c) := Option.some.inj (by simpa using h)
        have hi : j + 1 = i := congrArg Prod.fst h2
        have hc : d = c := congrArg Prod.snd h2
        subst hc
        subst hi
        obtain ⟨pre, post, hl, hlen, hpre, hcid⟩ := ih ho
        refine ⟨x :: pre, post, by simp [hl], by simp [hlen], ?_, hcid⟩
        intro b hb
        rcases List.mem_cons.mp hb with hb | hb
        · subst hb; exact hx
        · exact hpre b hb

theorem findIdx_append_cons {p : AudioClip → Bool} {pre : List AudioClip}
    (c : AudioClip) (post : List AudioClip)
    (hpre : ∀ b ∈ pre, p b = false) (hc : p c = true) :
    (pre ++ c :: post).findIdx p = pre.length := by
  induction pre with
  | nil => simp [List.findIdx_cons, hc]
  | cons x xs ih =>
    have hx : p x = false := hpre x (by simp)
    simp only [List.cons_append, List.findIdx_cons, hx, cond_false, List.length_cons]
    rw [ih (fun b hb => hpre b (List.mem_cons_of_mem x hb))]

/-- Locate a clip inside the sorted clip list: with pairwise-distinct ids,
the sorted list splits around the clip and no other element carries its id. -/
theorem sorted_decomp_of_mem {l : List AudioClip} {c : AudioClip}
    (hmem : c ∈ l) (hnd : (l.map (fun x => x.id)).Nodup) :
    ∃ A B, sortClipsByTime l = A ++ c :: B ∧
      (∀ b ∈ A, b.id ≠ c.id) ∧ (∀ b ∈ B, b.id ≠ c.id) := by
  have hperm := perm_sortClipsByTime l
  have hmem' : c ∈ sortClipsByTime l := hperm.mem_iff.mpr hmem
  have hnd' : ((sortClipsByTime l).map (fun x => x.id)).Nodup :=
    (hperm.map (fun x => x.id)).nodup_iff.mpr hnd
  obtain ⟨A, B, hAB⟩ := List.append_of_mem hmem'
  rw [hAB] at hnd'
  simp only [List.map_append, List.map_cons, List.nodup_append] at hnd'
  obtain ⟨hndA, hndCB, hdisj⟩ := hnd'
  refine ⟨A, B, hAB, ?_, ?_⟩
  · intro b hb heq
    exact hdisj (List.mem_map_of_mem _ hb) (by simp [heq])
  · intro b hb heq
    have := List.nodup_cons.mp hndCB
    exact this.1 (heq ▸ List.mem_map_of_mem _ hb)

/-- With pairwise-distinct clip ids, `findIdx` on the sorted list finds the
clip at the position of its decomposition. -/
theorem findIdx_sorted {A B : List AudioClip} {c : AudioClip}
    (hA : ∀ b ∈ A, b.id ≠ c.id) :
    (A ++ c :: B).findIdx (fun x => x.id = c.id) = A.length := by
  refine findIdx_append_cons c B ?_ (by simp)
  intro b hb
  simpa using hA b hb

/-! ## Neighbour-based forms of the constraint functions

When the dragged/trimmed clip sits at position `A.length` of the sorted
list `A ++ c :: B`, the constraint functions only look at `A.getLast?` (the
previous clip) and `B.head?` (the next clip). -/

/-- The lower-bound part of `constrainClipDrag`: sample-0 clamp and the
previous-clip clamp. -/
def dragLowerBound (c : AudioClip) (d : Int) (prev : Option AudioClip) : Int :=
  let delta := max d (-c.startSample)
  match prev with
  | some p => max delta (clipEnd p - c.startSample)
  | none => delta

/-- The upper-bound part of `constrainClipDrag`: the next-clip clamp. -/
def dragUpperClamp (delta : Int) (c : AudioClip) (next : Option AudioClip) : Int :=
  match next with
  | some nx => min delta (nx.startSample - clipEnd c)
  | none => delta

/-- `constrainClipDrag` in neighbour form. -/
def moveDelta (c : AudioClip) (d : Int) (prev next : Option AudioClip) : Int :=
  dragUpperClamp (dragLowerBound c d prev) c next

/-- `constrainBoundaryTrim` for the left edge, in neighbour form. -/
def trimLeftDelta (c : AudioClip) (d : Int) (prev : Option AudioClip) (minDur : Int) : Int :=
  let delta := max d (-c.startSample)
  let delta := max delta (-c.offsetSamples)
  let delta :=
    match prev with
    | some p => max delta (clipEnd p - c.startSample)
    | none => delta
  min delta (c.durationSamples - minDur)

/-- `constrainBoundaryTrim` for the right edge, in neighbour form. -/
def trimRightDelta (c : AudioClip) (d : Int) (next : Option AudioClip) (minDur : Int) : Int :=
  let delta := max d (minDur - c.durationSamples)
  let delta := min delta (c.sourceDurationSamples - c.offsetSamples - c.durationSamples)
  match next with
  | some nx => min delta (nx.startSample - c.startSample - c.durationSamples)
  | none => delta

theorem getElem?_at_prev (A B : List AudioClip) (c p : AudioClip)
    (hA : A.getLast? = some p) :
    (A ++ c :: B)[A.length - 1]? = some p := by
  rcases List.eq_nil_or_concat A with rfl | ⟨A0, q, rfl⟩
  · simp at hA
  · simp only [List.concat_eq_append] at hA ⊢
    rw [List.getLast?_concat] at hA
    obtain rfl : q = p := Option.some.inj hA
    have hlen : (A0 ++ [q]).length - 1 = A0.length := by simp
    rw [hlen, List.append_assoc]
    rw [List.getElem?_append_right (by omega)]
    simp

theorem getElem?_at_next (A B : List AudioClip) (c nx : AudioClip)
    (hB : B.head? = some nx) :
    (A ++ c :: B)[A.length + 1]? = some nx := by
  rw [List.getElem?_append_right (by omega)]
  rcases B with _ | ⟨b0, rest⟩
  · simp at hB
  · obtain rfl : b0 = nx := Option.some.inj hB
    simp

theorem length_cond_next (A B : List AudioClip) (c : AudioClip) :
    (A.length + 1 < (A ++ c :: B).length) ↔ B ≠ [] := by
  rcases B with _ | ⟨b0, rest⟩
  · simp
  · simp

theorem constrainClipDrag_decomp (c : AudioClip) (d : Int) (A B : List AudioClip) :
    constrainClipDrag c d (A ++ c :: B) A.length =
      moveDelta c d A.getLast? B.head? := by
  have hprev :
      (if 0 < A.length then
        match (A ++ c :: B)[A.length - 1]? with
        | some prevClip =>
            max (max d (-c.startSample))
              (prevClip.startSample + prevClip.durationSamples - c.startSample)
        | none => max d (-c.startSample)
      else max d (-c.startSample)) = dragLowerBound c d A.getLast? := by
    rcases List.eq_nil_or_concat A with rfl | ⟨A0, q, rfl⟩
    · simp [dragLowerBound]
    · simp only [List.concat_eq_append]
      rw [if_pos (by simp), getElem?_at_prev _ B c q (List.getLast?_concat _),
        List.getLast?_concat]
      simp [dragLowerBound, clipEnd]
  have hnext : ∀ x : Int,
      (if A.length + 1 < (A ++ c :: B).length then
        match (A ++ c :: B)[A.length + 1]? with
        | some nextClip =>
            min x (nextClip.startSample - (c.startSample + c.durationSamples))
        | none => x
      else x) = dragUpperClamp x c B.head? := by
    intro x
    rcases B with _ | ⟨b0, rest⟩
    · rw [if_neg (by simp)]; simp [dragUpperClamp]
    · rw [if_pos ((length_cond_next A (b0 :: rest) c).mpr (by simp)),
        getElem?_at_next A (b0 :: rest) c b0 rfl]
      simp [dragUpperClamp, clipEnd]
  simp only [constrainClipDrag, moveDelta]
  rw [hprev, hnext]

theorem constrainBoundaryTrim_left_decomp (c : AudioClip) (d : Int) (A B : List AudioClip)
    (minDur : Int) :
    constrainBoundaryTrim c d .left (A ++ c :: B) A.length minDur =
      trimLeftDelta c d A.getLast? minDur := by
  have hprev :
      (if 0 < A.length then
        match (A ++ c :: B)[A.length - 1]? with
        | some prevClip =>
            max (max (max d (-c.startSample)) (-c.offsetSamples))
              (prevClip.startSample + prevClip.durationSamples - c.startSample)
        | none => max (max d (-c.startSample)) (-c.offsetSamples)
      else max (max d (-c.startSample)) (-c.offsetSamples)) =
        (match A.getLast? with
        | some p => max (max (max d (-c.startSample)) (-c.offsetSamples))
            (clipEnd p - c.startSample)
        | none => max (max d (-c.startSample)) (-c.offsetSamples)) := by
    rcases List.eq_nil_or_concat A with rfl | ⟨A0, q, rfl⟩
    · simp
    · simp only [List.concat_eq_append]
      rw [if_pos (by simp), getElem?_at_prev _ B c q (List.getLast?_concat _),
        List.getLast?_concat]
      simp [clipEnd]
  simp only [constrainBoundaryTrim, trimLeftDelta]
  rw [hprev]

theorem constrainBoundaryTrim_right_decomp (c : AudioClip) (d : Int) (A B : List AudioClip)
    (minDur : Int) :
    constrainBoundaryTrim c d .right (A ++ c :: B) A.length minDur =
      trimRightDelta c d B.head? minDur := by
  simp only [constrainBoundaryTrim, trimRightDelta]
  rcases B with _ | ⟨b0, rest⟩
  · rw [if_neg (by simp)]
    rfl
  · rw [if_pos ((length_cond_next A (b0 :: rest) c).mpr (by simp)),
      getElem?_at_next A (b0 :: rest) c b0 rfl]
    rfl

/-! ## Bounds satisfied by the constrained deltas -/

theorem moveDelta_bounds (c : AudioClip) (d : Int) (prev next : Option AudioClip)
    (hstart : 0 ≤ c.startSample)
    (hprev : ∀ p, prev = some p → clipEnd p ≤ c.startSample)
    (hnext : ∀ nx, next = some nx → clipEnd c ≤ nx.startSample) :
    0 ≤ c.startSample + moveDelta c d prev next ∧
      (∀ p, prev = some p → clipEnd p ≤ c.startSample + moveDelta c d prev next) ∧
      (∀ nx, next = some nx → clipEnd c + moveDelta c d prev next ≤ nx.startSample) := by
  cases prev with
  | none =>
    cases next with
    | none =>
      simp only [moveDelta, dragUpperClamp, dragLowerBound]
      refine ⟨by omega, ?_, ?_⟩
      · intro p hp; cases hp
      · intro nx hnx; cases hnx
    | some nx =>
      have hn := hnext nx rfl
      simp only [moveDelta, dragUpperClamp, dragLowerBound, clipEnd] at *
      refine ⟨by omega, ?_, ?_⟩
      · intro p hp; cases hp
      · intro nx2 hnx2
        obtain rfl : nx = nx2 := Option.some.inj hnx2
        omega
  | some p =>
    have hp := hprev p rfl
    cases next with
    | none =>
      simp only [moveDelta, dragUpperClamp, dragLowerBound, clipEnd] at *
      refine ⟨by omega, ?_, ?_⟩
      · intro p2 hp2
        obtain rfl : p = p2 := Option.some.inj hp2
        omega
      · intro nx hnx; cases hnx
    | some nx =>
      have hn := hnext nx rfl
      simp only [moveDelta, dragUpperClamp, dragLowerBound, clipEnd] at *
      refine ⟨by omega, ?_, ?_⟩
      · intro p2 hp2
        obtain rfl : p = p2 := Option.some.inj hp2
        omega
      · intro nx2 hnx2
        obtain rfl : nx = nx2 := Option.some.inj hnx2
        omega

theorem trimLeftDelta_bounds (c : AudioClip) (d minDur : Int) (prev : Option AudioClip)
    (hstart : 0 ≤ c.startSample) (hoff : 0 ≤ c.offsetSamples)
    (hdur : minDur ≤ c.durationSamples)
    (hprev : ∀ p, prev = some p → clipEnd p ≤ c.startSample) :
    0 ≤ c.startSample + trimLeftDelta c d prev minDur ∧
      0 ≤ c.offsetSamples + trimLeftDelta c d prev minDur ∧
      minDur ≤ c.durationSamples - trimLeftDelta c d prev minDur ∧
      (∀ p, prev = some p → clipEnd p ≤ c.startSample + trimLeftDelta c d prev minDur) := by
  cases prev with
  | none =>
    simp only [trimLeftDelta, clipEnd] at *
    refine ⟨by omega, by omega, by omega, by intro p hp; cases hp⟩
  | some p =>
    have hp := hprev p rfl
    simp only [trimLeftDelta, clipEnd] at *
    refine ⟨by omega, by omega, by omega, ?_⟩
    intro p2 hp2
    obtain rfl : p = p2 := Option.some.inj hp2
    omega

theorem trimRightDelta_bounds (c : AudioClip) (d minDur : Int) (next : Option AudioClip)
    (hdur : minDur ≤ c.durationSamples)
    (hsrc : c.offsetSamples + c.durationSamples ≤ c.sourceDurationSamples)
    (hnext : ∀ nx, next = some nx → clipEnd c ≤ nx.startSample) :
    minDur ≤ c.durationSamples + trimRightDelta c d next minDur ∧
      c.offsetSamples + (c.durationSamples + trimRightDelta c d next minDur) ≤
        c.sourceDurationSamples ∧
      (∀ nx, next = some nx →
        c.startSample + (c.durationSamples + trimRightDelta c d next minDur) ≤
          nx.startSample) := by
  cases next with
  | none =>
    simp only [trimRightDelta, clipEnd] at *
    refine ⟨by omega, by omega, by intro nx hnx; cases hnx⟩
  | some nx =>
    have hn := hnext nx rfl
    simp only [trimRightDelta, clipEnd] at *
    refine ⟨by omega, by omega, ?_⟩
    intro nx2 hnx2
    obtain rfl : nx = nx2 := Option.some.inj hnx2
    omega

/-! ## Separation against all clips on one side -/

theorem mem_of_getLast?_eq {l : List AudioClip} {p : AudioClip}
    (h : l.getLast? = some p) : p ∈ l := by
  have hp : p ∈ l.getLast? := Option.mem_def.mpr h
  have := List.dropLast_append_getLast? p hp
  rw [← this]
  simp

theorem sep_all_before {A : List AudioClip} {p : AudioClip}
    (hA : A.getLast? = some p) (hpw : A.Pairwise sep)
    (hd : ∀ b ∈ A, 0 ≤ b.durationSamples) {x : Int} (hpx : clipEnd p ≤ x) :
    ∀ b ∈ A, clipEnd b ≤ x := by
  induction A with
  | nil => intro b hb; cases hb
  | cons a rest ih =>
    intro b hb
    rcases List.mem_cons.mp hb with hb | hb
    · subst hb
      rcases hrest : rest with _ | ⟨r0, rrest⟩
      · subst hrest
        obtain rfl : b = p := Option.some.inj (by simpa using hA)
        exact hpx
      · subst hrest
        rw [List.getLast?_cons_cons] at hA
        have hpmem : p ∈ r0 :: rrest := mem_of_getLast?_eq hA
        have hsep : sep b p := (List.pairwise_cons.mp hpw).1 p hpmem
        have hpd : 0 ≤ p.durationSamples := hd p (List.mem_cons_of_mem b hpmem)
        unfold sep clipEnd at *
        omega
    · rcases hrest : rest with _ | ⟨r0, rrest⟩
      · subst hrest; cases hb
      · subst hrest
        rw [List.getLast?_cons_cons] at hA
        refine ih hA (List.pairwise_cons.mp hpw).2 ?_ b hb
        intro b2 hb2; exact hd b2 (List.mem_cons_of_mem a hb2)

theorem start_all_after {B : List AudioClip} {nx : AudioClip}
    (hB : B.head? = some nx) (hsorted : B.Pairwise startLE)
    {x : Int} (hxn : x ≤ nx.startSample) :
    ∀ b ∈ B, x ≤ b.startSample := by
  rcases B with _ | ⟨b0, rest⟩
  · simp at hB
  · obtain rfl : b0 = nx := Option.some.inj hB
    intro b hb
    rcases List.mem_cons.mp hb with hb | hb
    · subst hb; exact hxn
    · exact le_trans hxn ((List.pairwise_cons.mp hsorted).1 b hb)

/-! ## Rebuilding pairwise non-overlap after a replacement -/

theorem pairSep_replaceOne {pre post : List AudioClip} {c cNew : AudioClip}
    (hps : PairSep (pre ++ c :: post))
    (h1 : ∀ b ∈ pre, symmSep b cNew) (h2 : ∀ b ∈ post, symmSep cNew b) :
    PairSep (pre ++ cNew :: post) := by
  unfold PairSep at *
  rw [List.pairwise_append] at hps ⊢
  obtain ⟨hpre, hcpost, hcross⟩ := hps
  rcases List.pairwise_cons.mp hcpost with ⟨_, hpost⟩
  refine ⟨hpre, List.pairwise_cons.mpr ⟨fun b hb => h2 b hb, hpost⟩, ?_⟩
  intro a ha b hb
  rcases List.mem_cons.mp hb with hb | hb
  · subst hb; exact h1 a ha
  · exact hcross a ha b (List.mem_cons_of_mem c hb)

theorem pairSep_replaceTwo {pre post : List AudioClip} {c l r : AudioClip}
    (hps : PairSep (pre ++ c :: post))
    (hlr : symmSep l r)
    (h1l : ∀ b ∈ pre, symmSep b l) (h1r : ∀ b ∈ pre, symmSep b r)
    (h2l : ∀ b ∈ post, symmSep l b) (h2r : ∀ b ∈ post, symmSep r b) :
    PairSep (pre ++ l :: r :: post) := by
  unfold PairSep at *
  rw [List.pairwise_append] at hps ⊢
  obtain ⟨hpre, hcpost, hcross⟩ := hps
  rcases List.pairwise_cons.mp hcpost with ⟨_, hpost⟩
  refine ⟨hpre, ?_, ?_⟩
  · refine List.pairwise_cons.mpr ⟨?_, List.pairwise_cons.mpr ⟨fun b hb => h2r b hb, hpost⟩⟩
    intro b hb
    rcases List.mem_cons.mp hb with hb | hb
    · subst hb; exact hlr
    · exact h2l b hb
  · intro a ha b hb
    rcases List.mem_cons.mp hb with hb | hb
    · subst hb; exact h1l a ha
    rcases List.mem_cons.mp hb with hb | hb
    · subst hb; exact h1r a ha
    · exact hcross a ha b (List.mem_cons_of_mem c hb)

/-! ## The engine's indexed map hits exactly the found position -/

theorem mapWithIndexFrom_skip (g : AudioClip → AudioClip) (t : Nat) :
    ∀ (l : List AudioClip) (j : Nat), t < j →
      mapWithIndexFrom (fun i x => if i = t then g x else x) j l = l := by
  intro l
  induction l with
  | nil => intro j _; rfl
  | cons x xs ih =>
    intro j hj
    simp only [mapWithIndexFrom]
    rw [if_neg (by omega), ih (j + 1) (by omega)]

theorem mapWithIndexFrom_ite (g : AudioClip → AudioClip) :
    ∀ (pre : List AudioClip) (c : AudioClip) (post : List AudioClip) (i0 : Nat),
      mapWithIndexFrom (fun i x => if i = i0 + pre.length then g x else x) i0
          (pre ++ c :: post) = pre ++ g c :: post := by
  intro pre
  induction pre with
  | nil =>
    intro c post i0
    simp only [List.nil_append, mapWithIndexFrom, List.length_nil, Nat.add_zero, if_pos rfl]
    rw [mapWithIndexFrom_skip g i0 post (i0 + 1) (by omega)]
    simp
  | cons x xs ih =>
    intro c post i0
    simp only [List.cons_append, mapWithIndexFrom, List.length_cons]
    rw [if_neg (by omega)]
    simp only [show i0 + (xs.length + 1) = i0 + 1 + xs.length from by omega]
    exact congrArg (fun l => x :: l) (ih c post (i0 + 1))

theorem mapWithIndex_ite (g : AudioClip → AudioClip) (pre : List AudioClip)
    (c : AudioClip) (post : List AudioClip) :
    mapWithIndex (fun i x => if i = pre.length then g x else x) (pre ++ c :: post) =
      pre ++ g c :: post := by
  unfold mapWithIndex
  have := mapWithIndexFrom_ite g pre c post 0
  simpa using this

/-! ## Fresh generated ids -/

theorem genClipId_inj {n m : Nat} (h : genClipId n = genClipId m) : n = m := by
  have hdata : (genClipId n).data = (genClipId m).data := by rw [h]
  simp only [genClipId] at hdata
  have := congrArg List.length hdata
  simpa using this

theorem clipIdFresh_mono {n m : Nat} {c : AudioClip} (hnm : n ≤ m)
    (h : clipIdFresh n c) : clipIdFresh m c :=
  fun k hk => lt_of_lt_of_le (h k hk) hnm

theorem clipIdFresh_of_lt {j n : Nat} (hj : j < n) {c : AudioClip}
    (hc : c.id = genClipId j) : clipIdFresh n c := by
  intro k hk
  have : genClipId j = genClipId k := by rw [← hc, hk]
  rwa [← genClipId_inj this]

/-! ## A value-level uniqueness consequence of distinct ids -/

theorem unique_track_by_id {tracks : List ClipTrack} {tid : String}
    {track t : ClipTrack}
    (hnd : (tracks.map (fun x => x.id)).Nodup)
    (hfind : tracks.find? (fun x => x.id = tid) = some track)
    (ht : t ∈ tracks) (htid : t.id = tid) : t = track := by
  obtain ⟨pre, post, hl, hpre, hp⟩ := find?_decomp hfind
  subst hl
  have htrackid : track.id = tid := by simpa using hp
  rcases List.mem_append.mp ht with hmem | hmem
  · exfalso
    have := hpre t hmem
    simp [htid] at this
  · rcases List.mem_cons.mp hmem with hmem | hmem
    · exact hmem
    · exfalso
      simp only [List.map_append, List.map_cons, List.nodup_append] at hnd
      have := (List.nodup_cons.mp hnd.2.1).1
      exact this (htrackid ▸ htid ▸ List.mem_map_of_mem _ hmem)

/-! ## Context shared by the clip-editing methods

When a well-formed track's clip list is split at the clip found by id, the
sorted list splits around the same clip, the engine's sorted `findIdx` is
its position there, the sorted neighbours do not overlap it, and any new
clip that respects the previous clip's end and the next clip's start is
separated from every other clip of the track. -/

theorem engineEditContext {minDur : Int} {n : Nat} {clips : List AudioClip}
    {cid : String} {i : Nat} {c : AudioClip}
    (hmin : 0 < minDur)
    (hwf : clipsWF minDur n clips)
    (hfind : findClipIndex clips cid = some (i, c)) :
    ∃ pre post A B,
      clips = pre ++ c :: post ∧ pre.length = i ∧ c.id = cid ∧
      (∀ b ∈ pre, b.id ≠ c.id) ∧ (∀ b ∈ post, b.id ≠ c.id) ∧
      sortClipsByTime clips = A ++ c :: B ∧
      (sortClipsByTime clips).findIdx (fun b => b.id = cid) = A.length ∧
      (∀ p, A.getLast? = some p → clipEnd p ≤ c.startSample) ∧
      (∀ nx, B.head? = some nx → clipEnd c ≤ nx.startSample) ∧
      (∀ bNew : AudioClip,
        (∀ p, A.getLast? = some p → clipEnd p ≤ bNew.startSample) →
        (∀ nx, B.head? = some nx → clipEnd bNew ≤ nx.startSample) →
        (∀ b ∈ pre, symmSep b bNew) ∧ (∀ b ∈ post, symmSep bNew b)) := by
  obtain ⟨hall, hnd, hps⟩ := hwf
  obtain ⟨pre, post, hl, hlen, hpreCid, hcid⟩ := findClipIndex_decomp hfind
  have hmem : c ∈ clips := by rw [hl]; simp
  obtain ⟨A, B, hS, hAids, hBids⟩ := sorted_decomp_of_mem hmem hnd
  have hdpos : ∀ x ∈ clips, 0 < x.durationSamples :=
    fun x hx => lt_of_lt_of_le hmin (hall x hx).1.2.2.1
  have hperm := perm_sortClipsByTime clips
  have hsort := pairwise_startLE_sort clips
  have hpsS : (sortClipsByTime clips).Pairwise symmSep :=
    (hperm.pairwise_iff (fun h => symmSep_symm h)).mpr hps
  have hdS : ∀ x ∈ sortClipsByTime clips, 0 < x.durationSamples :=
    fun x hx => hdpos x (hperm.mem_iff.mp hx)
  have hsepS : (sortClipsByTime clips).Pairwise sep :=
    pairwise_sep_of_sorted hsort hpsS hdS
  rw [hS] at hsepS hsort
  have hdS' : ∀ x ∈ A ++ c :: B, 0 < x.durationSamples := by
    intro x hx; exact hdS x (by rw [hS]; exact hx)
  obtain ⟨hsepA, hsepCB, hcrossS⟩ := List.pairwise_append.mp hsepS
  obtain ⟨hsortA, hsortCB, _⟩ := List.pairwise_append.mp hsort
  have hsortB : B.Pairwise startLE := (List.pairwise_cons.mp hsortCB).2
  have hprevFact : ∀ p, A.getLast? = some p → clipEnd p ≤ c.startSample := by
    intro p hp
    exact hcrossS p (mem_of_getLast?_eq hp) c (List.mem_cons_self _ _)
  have hnextFact : ∀ nx, B.head? = some nx → clipEnd c ≤ nx.startSample := by
    intro nx hnx
    rcases B with _ | ⟨b0, rest⟩
    · simp at hnx
    · obtain rfl : b0 = nx := Option.some.inj hnx
      exact (List.pairwise_cons.mp hsepCB).1 b0 (List.mem_cons_self _ _)
  have hpostCid : ∀ b ∈ post, b.id ≠ c.id := by
    intro b hb heq
    have hnd' := hnd
    rw [hl] at hnd'
    simp only [List.map_append, List.map_cons, List.nodup_append, List.nodup_cons] at hnd'
    exact hnd'.2.1.1 (heq ▸ List.mem_map_of_mem _ hb)
  refine ⟨pre, post, A, B, hl, hlen, hcid, ?_, hpostCid, hS, ?_, hprevFact, hnextFact, ?_⟩
  · intro b hb
    rw [hcid]
    exact hpreCid b hb
  · rw [← hcid, hS]
    exact findIdx_sorted hAids
  · intro bNew hbPrev hbNext
    have hother : ∀ b ∈ clips, b.id ≠ c.id → symmSep b bNew := by
      intro b hbmem hbid
      have hbS : b ∈ A ++ c :: B := by rw [← hS]; exact hperm.mem_iff.mpr hbmem
      rcases List.mem_append.mp hbS with hbA | hbCB
      · rcases hlast : A.getLast? with _ | p
        · rcases A with _ | ⟨a0, arest⟩
          · cases hbA
          · rw [List.getLast?_eq_getLast_of_ne_nil (List.cons_ne_nil a0 arest)] at hlast
            cases hlast
        · exact Or.inl (sep_all_before hlast hsepA
            (fun b2 hb2 => le_of_lt (hdS' b2 (List.mem_append_left _ hb2)))
            (hbPrev p hlast) b hbA)
      · rcases List.mem_cons.mp hbCB with hbc | hbB
        · exact absurd (hbc ▸ rfl) hbid
        · rcases B with _ | ⟨b0, rest⟩
          · cases hbB
          · exact Or.inr (start_all_after List.head?_cons hsortB
              (hbNext b0 List.head?_cons) b hbB)
    constructor
    · intro b hb
      refine hother b ?_ ?_
      · rw [hl]; exact List.mem_append_left _ hb
      · rw [hcid]; exact hpreCid b hb
    · intro b hb
      have := hother b (by rw [hl]; exact List.mem_append_right _ (List.mem_cons_of_mem _ hb))
        (hpostCid b hb)
      exact symmSep_symm this

/-- A helper: transferring `clipsWF` to a clip list with the same ids, the
same well-formedness facts, and restored pairwise separation. -/
theorem clipsWF_of_parts {minDur : Int} {n : Nat} {clips : List AudioClip}
    (h1 : ∀ c ∈ clips, clipWF minDur c ∧ clipIdFresh n c)
    (h2 : (clips.map (fun c => c.id)).Nodup) (h3 : PairSep clips) :
    clipsWF minDur n clips :=
  ⟨h1, h2, h3⟩

/-- `moveClip` on one well-formed clip list keeps it well formed. -/
theorem clipsWF_moveClip {minDur : Int} {n : Nat} {clips : List AudioClip}
    {cid : String} {i : Nat} {c : AudioClip} (d : Int)
    (hmin : 0 < minDur)
    (hwf : clipsWF minDur n clips)
    (hfind : findClipIndex clips cid = some (i, c)) :
    clipsWF minDur n (mapWithIndex (fun k x =>
      if k = i then
        { x with startSample := x.startSample +
            (constrainClipDrag c d (sortClipsByTime clips)
              ((sortClipsByTime clips).findIdx (fun b => b.id = cid))) }
      else x) clips) := by
  obtain ⟨pre, post, A, B, hl, hlen, hcid, hpreIds, hpostIds, hS, hidx, hprevFact, hnextFact,
    hsepNew⟩ := engineEditContext hmin hwf hfind
  obtain ⟨hall, hnd, hps⟩ := hwf
  have hcw := (hall c (by rw [hl]; simp)).1
  set dlt := constrainClipDrag c d (sortClipsByTime clips)
    ((sortClipsByTime clips).findIdx (fun b => b.id = cid)) with hdlt
  have hdelta : dlt = moveDelta c d A.getLast? B.head? := by
    rw [hdlt, hidx, hS, constrainClipDrag_decomp]
  obtain ⟨hb0, hbPrev, hbNext⟩ :=
    moveDelta_bounds c d A.getLast? B.head? hcw.1 hprevFact hnextFact
  rw [← hdelta] at hb0 hbPrev hbNext
  have hmap : mapWithIndex (fun k x => if k = i then
      { x with startSample := x.startSample + dlt } else x) clips =
      pre ++ { c with startSample := c.startSample + dlt } :: post := by
    rw [hl, ← hlen]
    exact mapWithIndex_ite (fun x => { x with startSample := x.startSample + dlt }) pre c post
  rw [hmap]
  have hpsDecomp : PairSep (pre ++ c :: post) := by rw [← hl]; exact hps
  obtain ⟨hsepPre, hsepPost⟩ := hsepNew { c with startSample := c.startSample + dlt }
    (by intro p hp; simpa using hbPrev p hp)
    (by
      intro nx hnx
      have := hbNext nx hnx
      simp only [clipEnd] at this ⊢
      omega)
  refine clipsWF_of_parts ?_ ?_ (pairSep_replaceOne hpsDecomp hsepPre hsepPost)
  · intro x hx
    rcases List.mem_append.mp hx with hx | hx
    · exact hall x (by rw [hl]; exact List.mem_append_left _ hx)
    rcases List.mem_cons.mp hx with hx | hx
    · subst hx
      have hfr := (hall c (by rw [hl]; simp)).2
      refine ⟨⟨by simpa using hb0, hcw.2.1, hcw.2.2.1, hcw.2.2.2⟩, hfr⟩
    · exact hall x (by rw [hl]; exact List.mem_append_right _ (List.mem_cons_of_mem _ hx))
  · have : ((pre ++ { c with startSample := c.startSample + dlt } :: post).map
        (fun x => x.id)) = ((pre ++ c :: post).map (fun x => x.id)) := by
      simp
    rw [this, ← hl]
    exact hnd

/-- `trimClip` on one well-formed clip list keeps it well formed. -/
theorem clipsWF_trimClip {minDur : Int} {n : Nat} {clips : List AudioClip}
    {cid : String} {i : Nat} {c : AudioClip} (d : Int) (boundary : Boundary)
    (hmin : 0 < minDur)
    (hwf : clipsWF minDur n clips)
    (hfind : findClipIndex clips cid = some (i, c)) :
    clipsWF minDur n (mapWithIndex (fun k x =>
      if k = i then
        match boundary with
        | .left =>
          { x with
            startSample := x.startSample +
              (constrainBoundaryTrim c d boundary (sortClipsByTime clips)
                ((sortClipsByTime clips).findIdx (fun b => b.id = cid)) minDur)
            offsetSamples := x.offsetSamples +
              (constrainBoundaryTrim c d boundary (sortClipsByTime clips)
                ((sortClipsByTime clips).findIdx (fun b => b.id = cid)) minDur)
            durationSamples := x.durationSamples -
              (constrainBoundaryTrim c d boundary (sortClipsByTime clips)
                ((sortClipsByTime clips).findIdx (fun b => b.id = cid)) minDur) }
        | .right =>
          { x with durationSamples := x.durationSamples +
              (constrainBoundaryTrim c d boundary (sortClipsByTime clips)
                ((sortClipsByTime clips).findIdx (fun b => b.id = cid)) minDur) }
      else x) clips) := by
  obtain ⟨pre, post, A, B, hl, hlen, hcid, hpreIds, hpostIds, hS, hidx, hprevFact, hnextFact,
    hsepNew⟩ := engineEditContext hmin hwf hfind
  obtain ⟨hall, hnd, hps⟩ := hwf
  have hcw := (hall c (by rw [hl]; simp)).1
  have hfr := (hall c (by rw [hl]; simp)).2
  have hpsDecomp : PairSep (pre ++ c :: post) := by rw [← hl]; exact hps
  set dlt := constrainBoundaryTrim c d boundary (sortClipsByTime clips)
    ((sortClipsByTime clips).findIdx (fun b => b.id = cid)) minDur with hdlt
  cases boundary with
  | left =>
    have hdelta : dlt = trimLeftDelta c d A.getLast? minDur := by
      rw [hdlt, hidx, hS, constrainBoundaryTrim_left_decomp]
    obtain ⟨hb1, hb2, hb3, hb4⟩ := trimLeftDelta_bounds c d minDur A.getLast?
      hcw.1 hcw.2.1 hcw.2.2.1 hprevFact
    rw [← hdelta] at hb1 hb2 hb3 hb4
    have hmap : mapWithIndex (fun k x => if k = i then
        { x with
          startSample := x.startSample + dlt
          offsetSamples := x.offsetSamples + dlt
          durationSamples := x.durationSamples - dlt } else x) clips =
        pre ++ { c with
          startSample := c.startSample + dlt
          offsetSamples := c.offsetSamples + dlt
          durationSamples := c.durationSamples - dlt } :: post := by
      rw [hl, ← hlen]
      exact mapWithIndex_ite _ pre c post
    rw [show (mapWithIndex (fun k x => if k = i then
        match Boundary.left with
        | .left => { x with
            startSample := x.startSample + dlt
            offsetSamples := x.offsetSamples + dlt
            durationSamples := x.durationSamples - dlt }
        | .right => { x with durationSamples := x.durationSamples + dlt }
      else x) clips) = (mapWithIndex (fun k x => if k = i then
        { x with
          startSample := x.startSample + dlt
          offsetSamples := x.offsetSamples + dlt
          durationSamples := x.durationSamples - dlt } else x) clips) from rfl]
    rw [hmap]
    obtain ⟨hsepPre, hsepPost⟩ := hsepNew
      { c with
        startSample := c.startSample + dlt
        offsetSamples := c.offsetSamples + dlt
        durationSamples := c.durationSamples - dlt }
      (by intro p hp; simpa using hb4 p hp)
      (by
        intro nx hnx
        have := hnextFact nx hnx
        simp only [clipEnd] at this ⊢
        omega)
    refine clipsWF_of_parts ?_ ?_ (pairSep_replaceOne hpsDecomp hsepPre hsepPost)
    · intro x hx
      rcases List.mem_append.mp hx with hx | hx
      · exact hall x (by rw [hl]; exact List.mem_append_left _ hx)
      rcases List.mem_cons.mp hx with hx | hx
      · subst hx
        refine ⟨⟨by simpa using hb1, by simpa using hb2, by simpa using hb3, ?_⟩, hfr⟩
        have := hcw.2.2.2
        simp only []
        omega
      · exact hall x (by rw [hl]; exact List.mem_append_right _ (List.mem_cons_of_mem _ hx))
    · have : ((pre ++ { c with
          startSample := c.startSample + dlt
          offsetSamples := c.offsetSamples + dlt
          durationSamples := c.durationSamples - dlt } :: post).map (fun x => x.id)) =
          ((pre ++ c :: post).map (fun x => x.id)) := by simp
      rw [this, ← hl]
      exact hnd
  | right =>
    have hdelta : dlt = trimRightDelta c d B.head? minDur := by
      rw [hdlt, hidx, hS, constrainBoundaryTrim_right_decomp]
    obtain ⟨hb1, hb2, hb3⟩ := trimRightDelta_bounds c d minDur B.head?
      hcw.2.2.1 hcw.2.2.2 hnextFact
    rw [← hdelta] at hb1 hb2 hb3
    have hmap : mapWithIndex (fun k x => if k = i then
        { x with durationSamples := x.durationSamples + dlt } else x) clips =
        pre ++ { c with durationSamples := c.durationSamples + dlt } :: post := by
      rw [hl, ← hlen]
      exact mapWithIndex_ite _ pre c post
    rw [show (mapWithIndex (fun k x => if k = i then
        match Boundary.right with
        | .left => { x with
            startSample := x.startSample + dlt
            offsetSamples := x.offsetSamples + dlt
            durationSamples := x.durationSamples - dlt }
        | .right => { x with durationSamples := x.durationSamples + dlt }
      else x) clips) = (mapWithIndex (fun k x => if k = i then
        { x with durationSamples := x.durationSamples + dlt } else x) clips) from rfl]
    rw [hmap]
    obtain ⟨hsepPre, hsepPost⟩ := hsepNew
      { c with durationSamples := c.durationSamples + dlt }
      (by intro p hp; simpa using hprevFact p hp)
      (by
        intro nx hnx
        have := hb3 nx hnx
        simp only [clipEnd] at this ⊢
        omega)
    refine clipsWF_of_parts ?_ ?_ (pairSep_replaceOne hpsDecomp hsepPre hsepPost)
    · intro x hx
      rcases List.mem_append.mp hx with hx | hx
      · exact hall x (by rw [hl]; exact List.mem_append_left _ hx)
      rcases List.mem_cons.mp hx with hx | hx
      · subst hx
        exact ⟨⟨by simpa using hcw.1, by simpa using hcw.2.1, by simpa using hb1,
          by simpa using hb2⟩, hfr⟩
      · exact hall x (by rw [hl]; exact List.mem_append_right _ (List.mem_cons_of_mem _ hx))
    · have : ((pre ++ { c with durationSamples := c.durationSamples + dlt } :: post).map
          (fun x => x.id)) = ((pre ++ c :: post).map (fun x => x.id)) := by simp
      rw [this, ← hl]
      exact hnd

theorem canSplitAt_spec {c : AudioClip} {s minDur : Int}
    (h : canSplitAt c s minDur = true) :
    c.startSample < s ∧ s < clipEnd c ∧ minDur ≤ s - c.startSample ∧
      minDur ≤ clipEnd c - s := by
  unfold canSplitAt at h
  by_cases h1 : s ≤ c.startSample ∨ c.startSample + c.durationSamples ≤ s
  · rw [if_pos h1] at h; cases h
  · rw [if_neg h1] at h
    push_neg at h1
    simp only [Bool.and_eq_true, decide_eq_true_eq] at h
    exact ⟨h1.1, h1.2, h.1, h.2⟩

theorem spliceReplaceTwo_decomp (pre post : List AudioClip) (c l r : AudioClip) :
    spliceReplaceTwo (pre ++ c :: post) pre.length l r = pre ++ l :: r :: post := by
  unfold spliceReplaceTwo
  have h1 : (pre ++ c :: post).take pre.length = pre := by
    rw [List.take_append_of_le_length (le_refl _)]
    simp
  have h2 : (pre ++ c :: post).drop (pre.length + 1) = post := by
    rw [show pre ++ c :: post = (pre ++ [c]) ++ post by simp,
      show pre.length + 1 = (pre ++ [c]).length by simp]
    exact List.drop_left _ _
  rw [h1, h2]

/-- `splitClip` on one well-formed clip list keeps it well formed, with the
id-generator state advanced past the two fresh ids. -/
theorem clipsWF_splitClip {minDur : Int} {n : Nat} {clips : List AudioClip}
    {cid : String} {i : Nat} {c : AudioClip} {atSample : Int}
    (hmin : 0 < minDur)
    (hwf : clipsWF minDur n clips)
    (hfind : findClipIndex clips cid = some (i, c))
    (hcan : canSplitAt c atSample minDur = true) :
    clipsWF minDur (n + 2) (spliceReplaceTwo clips i
      (splitClipOp c atSample (genClipId n) (genClipId (n + 1))).1
      (splitClipOp c atSample (genClipId n) (genClipId (n + 1))).2) := by
  obtain ⟨pre, post, A, B, hl, hlen, hcid, hpreIds, hpostIds, hS, hidx, hprevFact, hnextFact,
    hsepNew⟩ := engineEditContext hmin hwf hfind
  obtain ⟨hall, hnd, hps⟩ := hwf
  have hcw := (hall c (by rw [hl]; simp)).1
  have hpsDecomp : PairSep (pre ++ c :: post) := by rw [← hl]; exact hps
  obtain ⟨hs1, hs2, hs3, hs4⟩ := canSplitAt_spec hcan
  set L := (splitClipOp c atSample (genClipId n) (genClipId (n + 1))).1 with hLdef
  set R := (splitClipOp c atSample (genClipId n) (genClipId (n + 1))).2 with hRdef
  have hLstart : L.startSample = c.startSample := rfl
  have hLdur : L.durationSamples = atSample - c.startSample := rfl
  have hLoff : L.offsetSamples = c.offsetSamples := rfl
  have hLsrc : L.sourceDurationSamples = c.sourceDurationSamples := rfl
  have hLid : L.id = genClipId n := rfl
  have hRstart : R.startSample = atSample := rfl
  have hRdur : R.durationSamples = c.durationSamples - (atSample - c.startSample) := rfl
  have hRoff : R.offsetSamples = c.offsetSamples + (atSample - c.startSample) := rfl
  have hRsrc : R.sourceDurationSamples = c.sourceDurationSamples := rfl
  have hRid : R.id = genClipId (n + 1) := rfl
  have hsplice : spliceReplaceTwo clips i L R = pre ++ L :: R :: post := by
    rw [hl, ← hlen]
    exact spliceReplaceTwo_decomp pre post c L R
  rw [hsplice]
  have hEndc : clipEnd c = c.startSample + c.durationSamples := rfl
  obtain ⟨hsepPreL, hsepPostL⟩ := hsepNew L
    (by
      intro p hp
      have := hprevFact p hp
      rw [hLstart]
      omega)
    (by
      intro nx hnx
      have := hnextFact nx hnx
      simp only [clipEnd, hLstart, hLdur] at *
      omega)
  obtain ⟨hsepPreR, hsepPostR⟩ := hsepNew R
    (by
      intro p hp
      have := hprevFact p hp
      rw [hRstart]
      simp only [clipEnd] at *
      omega)
    (by
      intro nx hnx
      have := hnextFact nx hnx
      simp only [clipEnd, hRstart, hRdur] at *
      omega)
  have hLR : symmSep L R := by
    left
    show clipEnd L ≤ R.startSample
    simp only [clipEnd, hLstart, hLdur, hRstart]
    omega
  refine clipsWF_of_parts ?_ ?_
    (pairSep_replaceTwo hpsDecomp hLR hsepPreL hsepPreR hsepPostL hsepPostR)
  · intro x hx
    rcases List.mem_append.mp hx with hx | hx
    · have := hall x (by rw [hl]; exact List.mem_append_left _ hx)
      exact ⟨this.1, clipIdFresh_mono (by omega) this.2⟩
    rcases List.mem_cons.mp hx with hx | hx
    · subst hx
      refine ⟨⟨?_, ?_, ?_, ?_⟩, clipIdFresh_of_lt (by omega) hLid⟩
      · rw [hLstart]; exact hcw.1
      · rw [hLoff]; exact hcw.2.1
      · rw [hLdur]; omega
      · rw [hLoff, hLdur, hLsrc]
        have := hcw.2.2.2
        simp only [clipEnd] at hs2
        omega
    rcases List.mem_cons.mp hx with hx | hx
    · subst hx
      refine ⟨⟨?_, ?_, ?_, ?_⟩, clipIdFresh_of_lt (by omega) hRid⟩
      · rw [hRstart]
        have := hcw.1
        omega
      · rw [hRoff]
        have := hcw.2.1
        omega
      · rw [hRdur]
        simp only [clipEnd] at hs4
        omega
      · rw [hRoff, hRdur, hRsrc]
        have := hcw.2.2.2
        omega
    · have := hall x (by rw [hl]; exact List.mem_append_right _ (List.mem_cons_of_mem _ hx))
      exact ⟨this.1, clipIdFresh_mono (by omega) this.2⟩
  · have hndOld := hnd
    rw [hl] at hndOld
    simp only [List.map_append, List.map_cons, List.nodup_append, List.nodup_cons] at hndOld
    obtain ⟨hndPre, ⟨hcNotPost, hndPost⟩, hdisjOld⟩ := hndOld
    have hfreshPre : ∀ b ∈ pre, clipIdFresh n b :=
      fun b hb => (hall b (by rw [hl]; exact List.mem_append_left _ hb)).2
    have hfreshPost : ∀ b ∈ post, clipIdFresh n b := by
      intro b hb
      refine (hall b ?_).2
      rw [hl]
      exact List.mem_append_right _ (List.mem_cons_of_mem _ hb)
    have hgnNotPre : ∀ b ∈ pre, b.id ≠ genClipId n := by
      intro b hb heq
      exact absurd (hfreshPre b hb n heq) (by omega)
    have hgn1NotPre : ∀ b ∈ pre, b.id ≠ genClipId (n + 1) := by
      intro b hb heq
      exact absurd (hfreshPre b hb (n + 1) heq) (by omega)
    have hgnNotPost : ∀ b ∈ post, b.id ≠ genClipId n := by
      intro b hb heq
      exact absurd (hfreshPost b hb n heq) (by omega)
    have hgn1NotPost : ∀ b ∈ post, b.id ≠ genClipId (n + 1) := by
      intro b hb heq
      exact absurd (hfreshPost b hb (n + 1) heq) (by omega)
    simp only [List.map_append, List.map_cons, List.nodup_append, List.nodup_cons]
    refine ⟨hndPre, ⟨?_, ?_, hndPost⟩, ?_⟩
    · rw [hLid, hRid]
      intro hmem
      rcases List.mem_cons.mp hmem with hmem | hmem
      · exact absurd (genClipId_inj hmem) (by omega)
      · obtain ⟨b, hb, hbid⟩ := List.mem_map.mp hmem
        exact hgnNotPost b hb hbid
    · rw [hRid]
      intro hmem
      obtain ⟨b, hb, hbid⟩ := List.mem_map.mp hmem
      exact hgn1NotPost b hb hbid
    · intro a hamem hbmem
      obtain ⟨b, hb, hbid⟩ := List.mem_map.mp hamem
      rcases List.mem_cons.mp hbmem with hmem | hmem
      · exact hgnNotPre b hb (by rw [hbid, hmem, hLid])
      rcases List.mem_cons.mp hmem with hmem | hmem
      · exact hgn1NotPre b hb (by rw [hbid, hmem, hRid])
      · exact hdisjOld (List.mem_map_of_mem _ hb)
          (by rw [hbid]; exact List.mem_cons_of_mem _ hmem)

/-! ## Engine-level preservation of well-formedness -/

theorem tracks_map_ids (e : Engine) (tid : String)
    (g : ClipTrack → List AudioClip) :
    ((e.tracks.map (fun t => if t.id = tid then { t with clips := g t } else t)).map
      (fun t => t.id)) = e.tracks.map (fun t => t.id) := by
  rw [List.map_map]
  apply List.map_congr_left
  intro t _
  by_cases ht : t.id = tid
  · simp [ht]
  · simp [ht]

theorem engineWF_mapTracks {e : Engine} {tid : String} {track : ClipTrack}
    (h : EngineWF e)
    (hf : e.tracks.find? (fun t => t.id = tid) = some track)
    (g : ClipTrack → List AudioClip)
    (hg : clipsWF (minDurationSamples e.sampleRate) e.freshClipIds (g track)) :
    EngineWF { e with tracks := e.tracks.map (fun t =>
      if t.id = tid then { t with clips := g t } else t) } := by
  obtain ⟨hmin, hnd, hall⟩ := h
  refine ⟨hmin, ?_, ?_⟩
  · rw [tracks_map_ids]
    exact hnd
  · intro t' ht'
    obtain ⟨t, ht, rfl⟩ := List.mem_map.mp ht'
    by_cases htid : t.id = tid
    · have heq : t = track := unique_track_by_id hnd hf ht htid
      subst heq
      simp only [if_pos htid]
      exact hg
    · simp only [if_neg htid]
      exact hall t ht

theorem engineWF_mapTracksBump {e : Engine} {tid : String} {track : ClipTrack}
    (h : EngineWF e)
    (hf : e.tracks.find? (fun t => t.id = tid) = some track)
    (g : ClipTrack → List AudioClip)
    (hg : clipsWF (minDurationSamples e.sampleRate) (e.freshClipIds + 2) (g track)) :
    EngineWF { e with
      tracks := e.tracks.map (fun t =>
        if t.id = tid then { t with clips := g t } else t)
      freshClipIds := e.freshClipIds + 2 } := by
  obtain ⟨hmin, hnd, hall⟩ := h
  refine ⟨hmin, ?_, ?_⟩
  · rw [tracks_map_ids]
    exact hnd
  · intro t' ht'
    obtain ⟨t, ht, rfl⟩ := List.mem_map.mp ht'
    by_cases htid : t.id = tid
    · have heq : t = track := unique_track_by_id hnd hf ht htid
      subst heq
      simp only [if_pos htid]
      exact hg
    · simp only [if_neg htid]
      obtain ⟨h1, h2, h3⟩ := hall t ht
      exact ⟨fun c hc => ⟨(h1 c hc).1, clipIdFresh_mono (by omega) (h1 c hc).2⟩, h2, h3⟩

theorem engineWF_moveClip (e : Engine) (tid cid : String) (d : Int)
    (h : EngineWF e) : EngineWF (e.moveClip tid cid d).1 := by
  rcases hf : e.tracks.find? (fun t => t.id = tid) with _ | track
  · simp only [Engine.moveClip, hf]
    exact h
  rcases hfc : findClipIndex track.clips cid with _ | p
  · simp only [Engine.moveClip, hf, hfc]
    exact h
  obtain ⟨clipIndex, clip⟩ := p
  have htrackmem : track ∈ e.tracks := List.mem_of_find?_eq_some hf
  by_cases hz : constrainClipDrag clip d (sortClipsByTime track.clips)
      ((sortClipsByTime track.clips).findIdx (fun c => c.id = cid)) = 0
  · simp only [Engine.moveClip, hf, hfc]
    rw [if_pos hz]
    exact h
  · simp only [Engine.moveClip, hf, hfc]
    rw [if_neg hz]
    exact engineWF_mapTracks h hf
      (fun t => mapWithIndex (fun i c =>
        if i = clipIndex then
          { c with startSample := c.startSample +
              (constrainClipDrag clip d (sortClipsByTime track.clips)
                ((sortClipsByTime track.clips).findIdx (fun c2 => c2.id = cid))) }
        else c) t.clips)
      (clipsWF_moveClip d h.1 (h.2.2 track htrackmem) hfc)

theorem engineWF_trimClip (e : Engine) (tid cid : String) (boundary : Boundary) (d : Int)
    (h : EngineWF e) : EngineWF (e.trimClip tid cid boundary d).1 := by
  rcases hf : e.tracks.find? (fun t => t.id = tid) with _ | track
  · simp only [Engine.trimClip, hf]
    exact h
  rcases hfc : findClipIndex track.clips cid with _ | p
  · simp only [Engine.trimClip, hf, hfc]
    exact h
  obtain ⟨clipIndex, clip⟩ := p
  have htrackmem : track ∈ e.tracks := List.mem_of_find?_eq_some hf
  have hwftrack := h.2.2 track htrackmem
  cases boundary with
  | left =>
    by_cases hz : constrainBoundaryTrim clip d .left (sortClipsByTime track.clips)
        ((sortClipsByTime track.clips).findIdx (fun c => c.id = cid))
        (minDurationSamples e.sampleRate) = 0
    · simp only [Engine.trimClip, hf, hfc]
      rw [if_pos hz]
      exact h
    · simp only [Engine.trimClip, hf, hfc]
      rw [if_neg hz]
      exact engineWF_mapTracks h hf _ (clipsWF_trimClip d .left h.1 hwftrack hfc)
  | right =>
    by_cases hz : constrainBoundaryTrim clip d .right (sortClipsByTime track.clips)
        ((sortClipsByTime track.clips).findIdx (fun c => c.id = cid))
        (minDurationSamples e.sampleRate) = 0
    · simp only [Engine.trimClip, hf, hfc]
      rw [if_pos hz]
      exact h
    · simp only [Engine.trimClip, hf, hfc]
      rw [if_neg hz]
      exact engineWF_mapTracks h hf _ (clipsWF_trimClip d .right h.1 hwftrack hfc)

theorem engineWF_splitClip (e : Engine) (tid cid : String) (atSample : Int)
    (h : EngineWF e) : EngineWF (e.splitClip tid cid atSample).1 := by
  rcases hf : e.tracks.find? (fun t => t.id = tid) with _ | track
  · simp only [Engine.splitClip, hf]
    exact h
  rcases hfc : findClipIndex track.clips cid with _ | p
  · simp only [Engine.splitClip, hf, hfc]
    exact h
  obtain ⟨clipIndex, clip⟩ := p
  have htrackmem : track ∈ e.tracks := List.mem_of_find?_eq_some hf
  by_cases hcan : canSplitAt clip atSample (minDurationSamples e.sampleRate) = true
  · simp only [Engine.splitClip, hf, hfc]
    rw [if_neg (by simp [hcan])]
    exact engineWF_mapTracksBump h hf
      (fun t => spliceReplaceTwo t.clips clipIndex
        (splitClipOp clip atSample (genClipId e.freshClipIds)
          (genClipId (e.freshClipIds + 1))).1
        (splitClipOp clip atSample (genClipId e.freshClipIds)
          (genClipId (e.freshClipIds + 1))).2)
      (clipsWF_splitClip h.1 (h.2.2 track htrackmem) hfc hcan)
  · simp only [Engine.splitClip, hf, hfc]
    rw [if_pos (by simpa using hcan)]
    exact h

theorem engineWF_applyOp (e : Engine) (op : EngineOp) (h : EngineWF e) :
    EngineWF (e.applyOp op) := by
  cases op with
  | move tid cid d => exact engineWF_moveClip e tid cid d h
  | trim tid cid b d => exact engineWF_trimClip e tid cid b d h
  | split tid cid s => exact engineWF_splitClip e tid cid s h

theorem engineWF_applyOps (e : Engine) (ops : List EngineOp) (h : EngineWF e) :
    EngineWF (e.applyOps ops) := by
  induction ops generalizing e with
  | nil => exact h
  | cons op rest ih => exact ih (e.applyOp op) (engineWF_applyOp e op h)

theorem moveClip_sampleRate (e : Engine) (tid cid : String) (d : Int) :
    (e.moveClip tid cid d).1.sampleRate = e.sampleRate := by
  rcases hf : e.tracks.find? (fun t => t.id = tid) with _ | track
  · simp only [Engine.moveClip, hf]
  rcases hfc : findClipIndex track.clips cid with _ | p
  · simp only [Engine.moveClip, hf, hfc]
  obtain ⟨clipIndex, clip⟩ := p
  by_cases hz : constrainClipDrag clip d (sortClipsByTime track.clips)
      ((sortClipsByTime track.clips).findIdx (fun c => c.id = cid)) = 0
  · simp only [Engine.moveClip, hf, hfc]
    rw [if_pos hz]
  · simp only [Engine.moveClip, hf, hfc]
    rw [if_neg hz]

theorem trimClip_sampleRate (e : Engine) (tid cid : String) (boundary : Boundary) (d : Int) :
    (e.trimClip tid cid boundary d).1.sampleRate = e.sampleRate := by
  rcases hf : e.tracks.find? (fun t => t.id = tid) with _ | track
  · simp only [Engine.trimClip, hf]
  rcases hfc : findClipIndex track.clips cid with _ | p
  · simp only [Engine.trimClip, hf, hfc]
  obtain ⟨clipIndex, clip⟩ := p
  by_cases hz : constrainBoundaryTrim clip d boundary (sortClipsByTime track.clips)
      ((sortClipsByTime track.clips).findIdx (fun c => c.id = cid))
      (minDurationSamples e.sampleRate) = 0
  · simp only [Engine.trimClip, hf, hfc]
    rw [if_pos hz]
  · simp only [Engine.trimClip, hf, hfc]
    rw [if_neg hz]

theorem splitClip_sampleRate (e : Engine) (tid cid : String) (atSample : Int) :
    (e.splitClip tid cid atSample).1.sampleRate = e.sampleRate := by
  rcases hf : e.tracks.find? (fun t => t.id = tid) with _ | track
  · simp only [Engine.splitClip, hf]
  rcases hfc : findClipIndex track.clips cid with _ | p
  · simp only [Engine.splitClip, hf, hfc]
  obtain ⟨clipIndex, clip⟩ := p
  by_cases hcan : canSplitAt clip atSample (minDurationSamples e.sampleRate) = true
  · simp only [Engine.splitClip, hf, hfc]
    rw [if_neg (by simp [hcan])]
  · simp only [Engine.splitClip, hf, hfc]
    rw [if_pos (by simpa using hcan)]

/-- The claim-level track hypothesis: the spec's clip invariant, distinct
clip ids, untouched generated ids, and the claim's sorted non-overlap. -/
def trackHyp (minDur : Int) (n : Nat) (t : ClipTrack) : Prop :=
  (∀ c ∈ t.clips, clipWF minDur c ∧ clipIdFresh n c) ∧
    (t.clips.map (fun c => c.id)).Nodup ∧ nonOverlapSorted t.clips

/-- From the claim-level hypotheses to the internal invariant. -/
theorem engineWF_of_trackHyp (e : Engine)
    (hmin : 0 < minDurationSamples e.sampleRate)
    (hnd : (e.tracks.map (fun t => t.id)).Nodup)
    (h : ∀ t ∈ e.tracks, trackHyp (minDurationSamples e.sampleRate) e.freshClipIds t) :
    EngineWF e := by
  refine ⟨hmin, hnd, ?_⟩
  intro t ht
  obtain ⟨hall, hndc, hchain⟩ := h t ht
  refine ⟨hall, hndc, ?_⟩
  exact pairSep_of_nonOverlapSorted hchain
    (fun c hc => le_of_lt (lt_of_lt_of_le hmin (hall c hc).1.2.2.1))

/-! ## Test fixtures for counterexamples and witnesses -/

/-- A clip with only the geometric fields set. -/
def mkBareClip (id : String) (s d off src : Int) : AudioClip :=
  { id := id
    startSample := s
    durationSamples := d
    offsetSamples := off
    sourceDurationSamples := src
    sampleRate := 44100
    gain := 1
    name := none
    color := none
    fadeIn := none
    fadeOut := none
    audioBuffer := none
    waveformData := none }

/-- A track with default playback attributes. -/
def mkBareTrack (id : String) (clips : List AudioClip) : ClipTrack :=
  { id := id
    name := id
    clips := clips
    muted := false
    soloed := false
    volume := 1
    pan := 0 }

/-- An engine at the default sample rate and zoom table. -/
def mkEngine (tracks : List ClipTrack) (fresh : Nat) : Engine :=
  { tracks := tracks
    currentTime := 0
    isPlaying := false
    selectedTrackId := none
    sampleRate := 44100
    zoomLevels := [256, 512, 1024, 2048, 4096, 8192]
    zoomIndex := 2
    selectionStart := 0
    selectionEnd := 0
    loopStart := 0
    loopEnd := 0
    isLoopEnabled := false
    freshClipIds := fresh }

/-- Engine whose middle clip has a negative duration: its track is pairwise
non-overlapping when sorted by start, yet `moveClip` breaks the invariant. -/
def c1cxEngine : Engine :=
  mkEngine [mkBareTrack "t"
    [mkBareClip "a" 0 2 0 441000, mkBareClip "b" 2 (-1) 0 441000,
     mkBareClip "c" 3 1 0 441000]] 0

def c1wClipA : AudioClip := mkBareClip (genClipId 0) 0 44100 0 441000
def c1wClipB : AudioClip := mkBareClip (genClipId 1) 88200 44100 0 441000

/-- A well-formed two-clip engine for the witnesses. -/
def c1wEngine : Engine := mkEngine [mkBareTrack "t1" [c1wClipA, c1wClipB]] 2

/-- Move the first clip against its neighbour, trim the second, then split
the first. -/
def c1wOps : List EngineOp :=
  [EngineOp.move "t1" (genClipId 0) 100000,
   EngineOp.trim "t1" (genClipId 1) Boundary.right (-22050),
   EngineOp.split "t1" (genClipId 0) 66150]

/-- C1: the amended claim.  For every engine state whose tracks satisfy the
spec's clip invariant (§3: `0 ≤ startSample`, `0 ≤ offsetSamples`,
`minimumDuration ≤ durationSamples`,
`offsetSamples + durationSamples ≤ sourceDurationSamples`), with distinct
track and clip ids, generated clip ids untouched, a positive minimum
duration, and every track pairwise non-overlapping when sorted by
`startSample`, after any sequence of `moveClip`/`trimClip`/`splitClip` calls
the clips on every track are still pairwise non-overlapping when sorted by
`startSample` (`startSample[i] + durationSamples[i] ≤ startSample[i+1]`). -/
theorem C1_nonOverlap_preserved (e : Engine) (ops : List EngineOp)
    (hmin : 0 < minDurationSamples e.sampleRate)
    (hnd : (e.tracks.map (fun t => t.id)).Nodup)
    (h : ∀ t ∈ e.tracks, trackHyp (minDurationSamples e.sampleRate) e.freshClipIds t) :
    ∀ t ∈ (e.applyOps ops).tracks, nonOverlapSorted t.clips := by
  have hwf := engineWF_applyOps e ops (engineWF_of_trackHyp e hmin hnd h)
  intro t ht
  obtain ⟨hall, _, hps⟩ := hwf.2.2 t ht
  exact nonOverlapSorted_of_pairSep hps
    (fun c hc => lt_of_lt_of_le hwf.1 (hall c hc).1.2.2.1)

/-- C1: counterexample to the claim as stated.  The precondition of the
claim (tracks pairwise non-overlapping when sorted by `startSample`) holds
for `c1cxEngine`, whose middle clip has a negative duration, yet a single
`moveClip` call produces an overlapping track. -/
theorem C1_counterexample :
    (∀ t ∈ c1cxEngine.tracks, nonOverlapSorted t.clips) ∧
      ¬ (∀ t ∈ (c1cxEngine.applyOps [EngineOp.move "t" "c" (-2)]).tracks,
          nonOverlapSorted t.clips) := by
  decide

/-- C1: witness instantiating `C1_nonOverlap_preserved` on a concrete
engine and call sequence. -/
theorem C1_witness :
    (0 < minDurationSamples c1wEngine.sampleRate ∧
      (c1wEngine.tracks.map (fun t => t.id)).Nodup ∧
      (∀ t ∈ c1wEngine.tracks,
        trackHyp (minDurationSamples c1wEngine.sampleRate) c1wEngine.freshClipIds t)) ∧
      ∀ t ∈ (c1wEngine.applyOps c1wOps).tracks, nonOverlapSorted t.clips := by
  have h1 : 0 < minDurationSamples c1wEngine.sampleRate := by decide
  have h2 : (c1wEngine.tracks.map (fun t => t.id)).Nodup := by decide
  have h3 : ∀ t ∈ c1wEngine.tracks,
      trackHyp (minDurationSamples c1wEngine.sampleRate) c1wEngine.freshClipIds t := by
    intro t ht
    have heq : t = mkBareTrack "t1" [c1wClipA, c1wClipB] := by
      simpa [c1wEngine, mkEngine] using ht
    subst heq
    refine ⟨?_, by decide, by decide⟩
    intro c hc
    have hc2 : c = c1wClipA ∨ c = c1wClipB := by simpa [mkBareTrack] using hc
    rcases hc2 with rfl | rfl
    · exact ⟨by decide, clipIdFresh_of_lt (by decide) rfl⟩
    · exact ⟨by decide, clipIdFresh_of_lt (by decide) rfl⟩
  exact ⟨⟨h1, h2, h3⟩, C1_nonOverlap_preserved c1wEngine c1wOps h1 h2 h3⟩

/-- Engine with one clip whose duration equals the minimum but whose used
region overruns the source audio (`offset + duration > sourceDuration`). -/
def c2cxEngine : Engine :=
  mkEngine [mkBareTrack "t" [mkBareClip "c1" 0 4410 0 100]] 0

def c2wEngine : Engine :=
  mkEngine [mkBareTrack "t1"
    [mkBareClip (genClipId 0) 0 44100 0 441000,
     mkBareClip (genClipId 1) 88200 44100 0 441000]] 2

/-- C2: the amended claim.  For every engine state whose tracks satisfy the
spec's clip invariant (so in particular every duration is at least the
minimum and `offsetSamples + durationSamples ≤ sourceDurationSamples`) with
distinct ids and non-overlapping tracks, after any `trimClip` call (either
edge, any requested delta) and after any `splitClip` call, every clip on
every track still has `durationSamples` at least the minimum duration
(0.1 seconds at the engine sample rate, floored). -/
theorem C2_minDuration_preserved (e : Engine) (tid cid : String) (boundary : Boundary)
    (d atSample : Int)
    (hmin : 0 < minDurationSamples e.sampleRate)
    (hnd : (e.tracks.map (fun t => t.id)).Nodup)
    (h : ∀ t ∈ e.tracks, trackHyp (minDurationSamples e.sampleRate) e.freshClipIds t) :
    (∀ t ∈ (e.trimClip tid cid boundary d).1.tracks, ∀ c ∈ t.clips,
      minDurationSamples e.sampleRate ≤ c.durationSamples) ∧
    (∀ t ∈ (e.splitClip tid cid atSample).1.tracks, ∀ c ∈ t.clips,
      minDurationSamples e.sampleRate ≤ c.durationSamples) := by
  have hwf := engineWF_of_trackHyp e hmin hnd h
  constructor
  · have h2 := engineWF_trimClip e tid cid boundary d hwf
    intro t ht c hc
    have h4 := ((h2.2.2 t ht).1 c hc).1.2.2.1
    rwa [trimClip_sampleRate] at h4
  · have h2 := engineWF_splitClip e tid cid atSample hwf
    intro t ht c hc
    have h4 := ((h2.2.2 t ht).1 c hc).1.2.2.1
    rwa [splitClip_sampleRate] at h4

/-- C2: counterexample to the claim as stated.  Every clip of `c2cxEngine`
has at least the minimum duration, yet a right-edge `trimClip` with
requested delta 0 commits a clip of 100 samples (< 4410), because the
source-length clamp (`offset + duration ≤ sourceDuration`, violated here)
is applied after the minimum-duration clamp. -/
theorem C2_counterexample :
    (∀ t ∈ c2cxEngine.tracks, ∀ c ∈ t.clips,
      minDurationSamples c2cxEngine.sampleRate ≤ c.durationSamples) ∧
      ¬ (∀ t ∈ (c2cxEngine.trimClip "t" "c1" Boundary.right 0).1.tracks, ∀ c ∈ t.clips,
          minDurationSamples c2cxEngine.sampleRate ≤ c.durationSamples) := by
  decide

/-- C2: witness instantiating `C2_minDuration_preserved` on a concrete
engine, trim and split. -/
theorem C2_witness :
    (0 < minDurationSamples c2wEngine.sampleRate ∧
      (c2wEngine.tracks.map (fun t => t.id)).Nodup ∧
      (∀ t ∈ c2wEngine.tracks,
        trackHyp (minDurationSamples c2wEngine.sampleRate) c2wEngine.freshClipIds t)) ∧
      ((∀ t ∈ (c2wEngine.trimClip "t1" (genClipId 0) Boundary.right (-100000)).1.tracks,
          ∀ c ∈ t.clips, minDurationSamples c2wEngine.sampleRate ≤ c.durationSamples) ∧
        (∀ t ∈ (c2wEngine.splitClip "t1" (genClipId 0) 22050).1.tracks,
          ∀ c ∈ t.clips, minDurationSamples c2wEngine.sampleRate ≤ c.durationSamples)) := by
  have h1 : 0 < minDurationSamples c2wEngine.sampleRate := by decide
  have h2 : (c2wEngine.tracks.map (fun t => t.id)).Nodup := by decide
  have h3 : ∀ t ∈ c2wEngine.tracks,
      trackHyp (minDurationSamples c2wEngine.sampleRate) c2wEngine.freshClipIds t := by
    intro t ht
    have heq : t = mkBareTrack "t1"
        [mkBareClip (genClipId 0) 0 44100 0 441000,
         mkBareClip (genClipId 1) 88200 44100 0 441000] := by
      simpa [c2wEngine, mkEngine] using ht
    subst heq
    refine ⟨?_, by decide, by decide⟩
    intro c hc
    have hc2 : c = mkBareClip (genClipId 0) 0 44100 0 441000 ∨
        c = mkBareClip (genClipId 1) 88200 44100 0 441000 := by
      simpa [mkBareTrack] using hc
    rcases hc2 with rfl | rfl
    · exact ⟨by decide, clipIdFresh_of_lt (by decide) rfl⟩
    · exact ⟨by decide, clipIdFresh_of_lt (by decide) rfl⟩
  exact ⟨⟨h1, h2, h3⟩,
    C2_minDuration_preserved c2wEngine "t1" (genClipId 0) Boundary.right
      (-100000) 22050 h1 h2 h3⟩

/-- A sorted two-clip list on which the drag constraint pushes the clip to
a negative start: the sample-0 clamp is applied before the next-clip clamp. -/
def c3cxClip : AudioClip := mkBareClip "x" 3 10 0 441000

def c3cxNext : AudioClip := mkBareClip "y" 5 10 0 441000

/-- The spec scenario: clip A `[0, 5000)` and clip B `[10000, 15000)`. -/
def c3sEngine : Engine :=
  mkEngine [mkBareTrack "t"
    [mkBareClip "ca" 0 5000 0 441000, mkBareClip "cb" 10000 5000 0 441000]] 0

def c3wPrev : AudioClip := mkBareClip "p" 0 5000 0 441000

def c3wMid : AudioClip := mkBareClip "m" 6000 5000 0 441000

def c3wNext : AudioClip := mkBareClip "q" 12000 5000 0 441000

/-- C3: the amended claim.  For every clip, requested delta and track clip
list sorted by `startSample` that is additionally non-overlapping with
nonnegative starts and durations (the spec's track state), the drag
constraint returns a delta whose application keeps the clip's start `≥ 0`,
at or after the previous clip's end when one exists, and its end at or
before the next clip's start when one exists; with no next clip the delta
is never clamped below the request, and with no previous clip it is never
raised above the sample-0 clamp `max d (-startSample)` (with no neighbours
at all it equals exactly that).  Moreover the spec scenario holds: on a
track with clip A `[0, 5000)` and clip B `[10000, 15000)`, `moveClip` on A
with requested delta `+8000` leaves A at `startSample = 5000`. -/
theorem C3_dragConstraint_bounds (c : AudioClip) (d : Int) (A B : List AudioClip)
    (hsorted : (A ++ c :: B).Pairwise startLE)
    (hchain : List.Chain' sep (A ++ c :: B))
    (hstart : 0 ≤ c.startSample)
    (hdur : ∀ x ∈ A ++ c :: B, 0 ≤ x.durationSamples) :
    0 ≤ c.startSample + constrainClipDrag c d (A ++ c :: B) A.length ∧
      (∀ p, A.getLast? = some p →
        clipEnd p ≤ c.startSample + constrainClipDrag c d (A ++ c :: B) A.length) ∧
      (∀ nx, B.head? = some nx →
        clipEnd c + constrainClipDrag c d (A ++ c :: B) A.length ≤ nx.startSample) ∧
      (B = [] → d ≤ constrainClipDrag c d (A ++ c :: B) A.length) ∧
      (A = [] → constrainClipDrag c d (A ++ c :: B) A.length ≤ max d (-c.startSample)) ∧
      (A = [] → B = [] →
        constrainClipDrag c d (A ++ c :: B) A.length = max d (-c.startSample)) ∧
      ((c3sEngine.moveClip "t" "ca" 8000).1.tracks.map
        (fun t => t.clips.map (fun x => x.startSample))) = [[5000, 10000]] := by
  have hpw : (A ++ c :: B).Pairwise sep := pairwise_sep_of_chain' hdur hchain
  obtain ⟨hsepA, hsepCB, hcrossS⟩ := List.pairwise_append.mp hpw
  have hprevFact : ∀ p, A.getLast? = some p → clipEnd p ≤ c.startSample := by
    intro p hp
    exact hcrossS p (mem_of_getLast?_eq hp) c (List.mem_cons_self _ _)
  have hnextFact : ∀ nx, B.head? = some nx → clipEnd c ≤ nx.startSample := by
    intro nx hnx
    rcases B with _ | ⟨b0, rest⟩
    · simp at hnx
    · obtain rfl : b0 = nx := Option.some.inj hnx
      exact (List.pairwise_cons.mp hsepCB).1 b0 (List.mem_cons_self _ _)
  rw [constrainClipDrag_decomp]
  obtain ⟨hb0, hbPrev, hbNext⟩ := moveDelta_bounds c d A.getLast? B.head? hstart
    hprevFact hnextFact
  refine ⟨hb0, hbPrev, hbNext, ?_, ?_, ?_, by decide⟩
  · intro hB
    subst hB
    simp only [moveDelta, dragUpperClamp, List.head?_nil, dragLowerBound]
    cases hA : A.getLast? with
    | none => exact le_max_left _ _
    | some p => exact le_trans (le_max_left _ _) (le_max_left _ _)
  · intro hA
    subst hA
    simp only [moveDelta, dragLowerBound, List.getLast?_nil, dragUpperClamp]
    cases B.head? with
    | none => exact le_refl _
    | some nx => exact min_le_left _ _
  · intro hA hB
    subst hA
    subst hB
    simp [moveDelta, dragLowerBound, dragUpperClamp]

/-- C3: counterexample to the claim as stated.  On the sorted list
`[x at 3 length 10, y at 5]` the constraint returns `-8` for requested
delta `0`, putting the clip's new start at `-5 < 0` (and below no previous
constraint; the claim's guarantees fail without the non-overlap
hypothesis). -/
theorem C3_counterexample :
    ([c3cxClip, c3cxNext].Pairwise startLE ∧
      constrainClipDrag c3cxClip 0 [c3cxClip, c3cxNext] 0 = -8) ∧
      c3cxClip.startSample + constrainClipDrag c3cxClip 0 [c3cxClip, c3cxNext] 0 < 0 := by
  decide

/-- C3: witness instantiating `C3_dragConstraint_bounds` with one previous
and one next clip. -/
theorem C3_witness :
    (([c3wPrev] ++ c3wMid :: [c3wNext]).Pairwise startLE ∧
      List.Chain' sep ([c3wPrev] ++ c3wMid :: [c3wNext]) ∧
      0 ≤ c3wMid.startSample ∧
      (∀ x ∈ [c3wPrev] ++ c3wMid :: [c3wNext], 0 ≤ x.durationSamples)) ∧
      (0 ≤ c3wMid.startSample +
        constrainClipDrag c3wMid 40000 ([c3wPrev] ++ c3wMid :: [c3wNext])
          [c3wPrev].length) := by
  have h1 : ([c3wPrev] ++ c3wMid :: [c3wNext]).Pairwise startLE := by decide
  have h2 : List.Chain' sep ([c3wPrev] ++ c3wMid :: [c3wNext]) :=
    (chainSepB_iff _).mp (by decide)
  have h3 : 0 ≤ c3wMid.startSample := by decide
  have h4 : ∀ x ∈ [c3wPrev] ++ c3wMid :: [c3wNext], 0 ≤ x.durationSamples := by decide
  exact ⟨⟨h1, h2, h3, h4⟩,
    (C3_dragConstraint_bounds c3wMid 40000 [c3wPrev] [c3wNext] h1 h2 h3 h4).1⟩

/-- The spec scenario clip for the split witness: `"Vocals"`, start 0,
duration 10000. -/
def c4wClip : AudioClip :=
  { mkBareClip "v" 0 10000 0 441000 with name := some "Vocals" }

/-- C4: for every clip and strictly interior split position `p`, the left
half keeps the original `startSample`, `offsetSamples` and fade-in and gets
duration `p − startSample`; the right half starts at `p`, inherits
`offsetSamples + leftDuration`, keeps the original fade-out and gets the
remaining duration; the durations sum to the original and the two
half-ranges exactly tile the original range; a clip named `N` (a name is a
nonempty string — the source tests `clip.name` for truthiness, so the empty
string counts as unnamed) yields halves named `"N (1)"` and `"N (2)"`. -/
theorem C4_splitClip_properties (c : AudioClip) (p : Int) (lid rid : String)
    (_hlo : c.startSample < p) (_hhi : p < clipEnd c) :
    (splitClip c p lid rid).1.startSample = c.startSample ∧
      (splitClip c p lid rid).1.offsetSamples = c.offsetSamples ∧
      (splitClip c p lid rid).1.fadeIn = c.fadeIn ∧
      (splitClip c p lid rid).1.durationSamples = p - c.startSample ∧
      (splitClip c p lid rid).2.startSample = p ∧
      (splitClip c p lid rid).2.offsetSamples =
        c.offsetSamples + (p - c.startSample) ∧
      (splitClip c p lid rid).2.fadeOut = c.fadeOut ∧
      (splitClip c p lid rid).2.durationSamples =
        c.durationSamples - (p - c.startSample) ∧
      (splitClip c p lid rid).1.durationSamples +
        (splitClip c p lid rid).2.durationSamples = c.durationSamples ∧
      clipEnd (splitClip c p lid rid).1 = (splitClip c p lid rid).2.startSample ∧
      clipEnd (splitClip c p lid rid).2 = clipEnd c ∧
      (∀ nm, c.name = some nm → nm ≠ "" →
        (splitClip c p lid rid).1.name = some (nm ++ " (1)") ∧
        (splitClip c p lid rid).2.name = some (nm ++ " (2)")) := by
  refine ⟨rfl, rfl, rfl, rfl, rfl, rfl, rfl, rfl, ?_, ?_, ?_, ?_⟩
  · show (p - c.startSample) + (c.durationSamples - (p - c.startSample)) = c.durationSamples
    omega
  · show c.startSample + (p - c.startSample) = p
    omega
  · show p + (c.durationSamples - (p - c.startSample)) = c.startSample + c.durationSamples
    omega
  · intro nm hname hne
    constructor
    · show (if jsTruthyName c.name then c.name.map (fun n => n ++ " (1)") else none) =
        some (nm ++ " (1)")
      simp [jsTruthyName, hname, hne]
    · show (if jsTruthyName c.name then c.name.map (fun n => n ++ " (2)") else none) =
        some (nm ++ " (2)")
      simp [jsTruthyName, hname, hne]

/-- C4: witness instantiating `C4_splitClip_properties` on the spec's
`"Vocals"` scenario (split at 5000). -/
theorem C4_witness :
    (c4wClip.startSample < 5000 ∧ (5000 : Int) < clipEnd c4wClip) ∧
      ((splitClip c4wClip 5000 "l" "r").1.startSample = c4wClip.startSample ∧
        (splitClip c4wClip 5000 "l" "r").1.offsetSamples = c4wClip.offsetSamples ∧
        (splitClip c4wClip 5000 "l" "r").1.fadeIn = c4wClip.fadeIn ∧
        (splitClip c4wClip 5000 "l" "r").1.durationSamples =
          5000 - c4wClip.startSample ∧
        (splitClip c4wClip 5000 "l" "r").2.startSample = 5000 ∧
        (splitClip c4wClip 5000 "l" "r").2.offsetSamples =
          c4wClip.offsetSamples + (5000 - c4wClip.startSample) ∧
        (splitClip c4wClip 5000 "l" "r").2.fadeOut = c4wClip.fadeOut ∧
        (splitClip c4wClip 5000 "l" "r").2.durationSamples =
          c4wClip.durationSamples - (5000 - c4wClip.startSample) ∧
        (splitClip c4wClip 5000 "l" "r").1.durationSamples +
          (splitClip c4wClip 5000 "l" "r").2.durationSamples =
            c4wClip.durationSamples ∧
        clipEnd (splitClip c4wClip 5000 "l" "r").1 =
          (splitClip c4wClip 5000 "l" "r").2.startSample ∧
        clipEnd (splitClip c4wClip 5000 "l" "r").2 = clipEnd c4wClip ∧
        (∀ nm, c4wClip.name = some nm → nm ≠ "" →
          (splitClip c4wClip 5000 "l" "r").1.name = some (nm ++ " (1)") ∧
          (splitClip c4wClip 5000 "l" "r").2.name = some (nm ++ " (2)"))) :=
  ⟨⟨by decide, by decide⟩,
    C4_splitClip_properties c4wClip 5000 "l" "r" (by decide) (by decide)⟩

def c5wEngine : Engine := mkEngine [] 0

/-- C5: if the attached adapter's `play()` rejects, the engine's `play`
returns that rejection to the caller and the engine still reports
`isPlaying = false`: the `this._isPlaying = true` line sits after the
awaited adapter call, so a rejection skips it. -/
theorem C5_playReject_notPlaying (e : Engine) (err : String) (startTime : Option ℚ)
    (hplay : e.isPlaying = false) :
    (e.play true (Except.error err) startTime).2 = Except.error err ∧
      (e.play true (Except.error err) startTime).1.isPlaying = false := by
  cases startTime with
  | none => exact ⟨rfl, hplay⟩
  | some t => exact ⟨rfl, hplay⟩

/-- C5: witness instantiating `C5_playReject_notPlaying` on a fresh engine. -/
theorem C5_witness :
    c5wEngine.isPlaying = false ∧
      (c5wEngine.play true (Except.error "AudioContext not resumed") (some 1)).2 =
        Except.error "AudioContext not resumed" ∧
      (c5wEngine.play true (Except.error "AudioContext not resumed")
        (some 1)).1.isPlaying = false :=
  ⟨rfl, C5_playReject_notPlaying c5wEngine "AudioContext not resumed" (some 1) rfl⟩

theorem findClipIndex_eq_none {clips : List AudioClip} {cid : String}
    (h : ∀ c ∈ clips, c.id ≠ cid) : findClipIndex clips cid = none := by
  induction clips with
  | nil => rfl
  | cons c rest ih =>
    simp only [findClipIndex, if_neg (h c (List.mem_cons_self _ _))]
    rw [ih (fun x hx => h x (List.mem_cons_of_mem c hx))]
    rfl

def c6wEngine : Engine :=
  mkEngine [mkBareTrack "t1" [mkBareClip "c1" 0 44100 0 441000]] 0

/-- C6: a mutation call with an invalid reference — `moveClip`, `trimClip`
or `splitClip` with an unknown track id, or with a known track id and an
unknown clip id, or `removeTrack` with an unknown track id — returns
normally, leaves the engine state unchanged and emits no `statechange`. -/
theorem C6_invalidRef_noop (e : Engine) (tid cid : String) (b : Boundary) (d s : Int) :
    ((∀ t ∈ e.tracks, t.id ≠ tid) →
      e.moveClip tid cid d = (e, false) ∧
        e.trimClip tid cid b d = (e, false) ∧
        e.splitClip tid cid s = (e, false) ∧
        e.removeTrack tid = (e, false)) ∧
      (∀ track, e.tracks.find? (fun t => t.id = tid) = some track →
        (∀ c ∈ track.clips, c.id ≠ cid) →
        e.moveClip tid cid d = (e, false) ∧
          e.trimClip tid cid b d = (e, false) ∧
          e.splitClip tid cid s = (e, false)) := by
  constructor
  · intro htid
    have hfnone : e.tracks.find? (fun t => t.id = tid) = none := by
      rw [List.find?_eq_none]
      intro t ht
      simpa using htid t ht
    have hanyfalse : e.tracks.any (fun t => t.id = tid) = false := by
      simp only [List.any_eq_false, decide_eq_true_eq]
      exact htid
    refine ⟨?_, ?_, ?_, ?_⟩
    · simp only [Engine.moveClip, hfnone]
    · simp only [Engine.trimClip, hfnone]
    · simp only [Engine.splitClip, hfnone]
    · simp only [Engine.removeTrack, hanyfalse]
      rw [if_neg (by simp)]
  · intro track hf hcid
    have hfcnone : findClipIndex track.clips cid = none := findClipIndex_eq_none hcid
    refine ⟨?_, ?_, ?_⟩
    · simp only [Engine.moveClip, hf, hfcnone]
    · simp only [Engine.trimClip, hf, hfcnone]
    · simp only [Engine.splitClip, hf, hfcnone]

/-- C6: witness instantiating `C6_invalidRef_noop` with an absent track id
and an absent clip id on a one-track engine. -/
theorem C6_witness :
    ((∀ t ∈ c6wEngine.tracks, t.id ≠ "zz") ∧
      (∀ c ∈ (mkBareTrack "t1" [mkBareClip "c1" 0 44100 0 441000]).clips,
        c.id ≠ "yy")) ∧
      (c6wEngine.moveClip "zz" "c1" 5 = (c6wEngine, false) ∧
        c6wEngine.trimClip "zz" "c1" Boundary.left 5 = (c6wEngine, false) ∧
        c6wEngine.splitClip "zz" "c1" 5 = (c6wEngine, false) ∧
        c6wEngine.removeTrack "zz" = (c6wEngine, false)) ∧
      (c6wEngine.moveClip "t1" "yy" 5 = (c6wEngine, false) ∧
        c6wEngine.trimClip "t1" "yy" Boundary.left 5 = (c6wEngine, false) ∧
        c6wEngine.splitClip "t1" "yy" 5 = (c6wEngine, false)) := by
  refine ⟨⟨by decide, by decide⟩, ?_, ?_⟩
  · exact (C6_invalidRef_noop c6wEngine "zz" "c1" Boundary.left 5 5).1 (by decide)
  · exact (C6_invalidRef_noop c6wEngine "t1" "yy" Boundary.left 5 5).2
      (mkBareTrack "t1" [mkBareClip "c1" 0 44100 0 441000]) (by decide) (by decide)

def c7wEngine : Engine :=
  { mkEngine [mkBareTrack "t1" [mkBareClip "c1" 0 44100 0 441000]] 0 with
    zoomLevels := [1024]
    zoomIndex := 0 }

/-- C7: a `moveClip` call whose constrained delta is exactly 0 emits no
`statechange` and leaves the state unchanged; `zoomIn` at index 0 and
`zoomOut` at the last table index likewise return the state unchanged with
no emission. -/
theorem C7_noop_guards (e : Engine) (tid cid : String) (d : Int) :
    (∀ track, e.tracks.find? (fun t => t.id = tid) = some track →
      ∀ i clip, findClipIndex track.clips cid = some (i, clip) →
      constrainClipDrag clip d (sortClipsByTime track.clips)
        ((sortClipsByTime track.clips).findIdx (fun c => c.id = cid)) = 0 →
      e.moveClip tid cid d = (e, false)) ∧
      (e.zoomIndex = 0 → e.zoomIn = (e, false)) ∧
      (e.zoomIndex = e.zoomLevels.length - 1 → e.zoomOut = (e, false)) := by
  refine ⟨?_, ?_, ?_⟩
  · intro track hf i clip hfc hz
    simp only [Engine.moveClip, hf, hfc]
    rw [if_pos hz]
  · intro h0
    simp only [Engine.zoomIn, h0]
    rw [if_neg (by omega)]
  · intro hlast
    simp only [Engine.zoomOut, hlast]
    rw [if_neg (by omega)]

/-- C7: witness instantiating `C7_noop_guards`: a leftward drag of a clip
already at sample 0 (constrained delta 0), `zoomIn` at index 0 and
`zoomOut` at the last index of a one-entry zoom table. -/
theorem C7_witness :
    (c7wEngine.tracks.find? (fun t => t.id = "t1") =
        some (mkBareTrack "t1" [mkBareClip "c1" 0 44100 0 441000]) ∧
      findClipIndex (mkBareTrack "t1" [mkBareClip "c1" 0 44100 0 441000]).clips "c1" =
        some (0, mkBareClip "c1" 0 44100 0 441000) ∧
      constrainClipDrag (mkBareClip "c1" 0 44100 0 441000) (-5)
        (sortClipsByTime (mkBareTrack "t1"
          [mkBareClip "c1" 0 44100 0 441000]).clips)
        ((sortClipsByTime (mkBareTrack "t1"
          [mkBareClip "c1" 0 44100 0 441000]).clips).findIdx
            (fun c => c.id = "c1")) = 0 ∧
      c7wEngine.zoomIndex = 0 ∧
      c7wEngine.zoomIndex = c7wEngine.zoomLevels.length - 1) ∧
      (c7wEngine.moveClip "t1" "c1" (-5) = (c7wEngine, false) ∧
        c7wEngine.zoomIn = (c7wEngine, false) ∧
        c7wEngine.zoomOut = (c7wEngine, false)) := by
  refine ⟨⟨by decide, by decide, by decide, by decide, by decide⟩, ?_, ?_, ?_⟩
  · exact (C7_noop_guards c7wEngine "t1" "c1" (-5)).1
      (mkBareTrack "t1" [mkBareClip "c1" 0 44100 0 441000]) (by decide)
      0 (mkBareClip "c1" 0 44100 0 441000) (by decide) (by decide)
  · exact (C7_noop_guards c7wEngine "t1" "c1" (-5)).2.1 (by decide)
  · exact (C7_noop_guards c7wEngine "t1" "c1" (-5)).2.2 (by decide)

/-- C8: `setSelection(a, b)` stores `selectionStart = min a b` and
`selectionEnd = max a b`, and `setLoopRegion(a, b)` stores
`loopStart = min a b` and `loopEnd = max a b`, so the stored pair always
satisfies `start ≤ end` regardless of argument order. -/
theorem C8_selection_normalized (e : Engine) (a b : ℚ) :
    (e.setSelection a b).selectionStart = min a b ∧
      (e.setSelection a b).selectionEnd = max a b ∧
      (e.setSelection a b).selectionStart ≤ (e.setSelection a b).selectionEnd ∧
      (e.setLoopRegion a b).loopStart = min a b ∧
      (e.setLoopRegion a b).loopEnd = max a b ∧
      (e.setLoopRegion a b).loopStart ≤ (e.setLoopRegion a b).loopEnd :=
  ⟨rfl, rfl, min_le_max, rfl, rfl, min_le_max⟩

/-- Distance of the `k`-th zoom entry to the target. -/
def zoomDist (target : Int) (zl : List Int) (k : Nat) : Nat :=
  (zl.getD k 0 - target).natAbs

theorem closestZoomGo_spec (target : Int) (zl : List Int) :
    ∀ (rest : List Int) (j bi bd : Nat), zl.drop j = rest →
      bi < j → bi < zl.length →
      bd = zoomDist target zl bi →
      (∀ k, k < j → bd ≤ zoomDist target zl k) →
      (∀ k, k < j → zoomDist target zl k = bd → bi ≤ k) →
      closestZoomGo target rest j bi bd < zl.length ∧
        (∀ k, k < zl.length →
          zoomDist target zl (closestZoomGo target rest j bi bd) ≤ zoomDist target zl k) ∧
        (∀ k, k < zl.length →
          zoomDist target zl k = zoomDist target zl (closestZoomGo target rest j bi bd) →
          closestZoomGo target rest j bi bd ≤ k) := by
  intro rest
  induction rest with
  | nil =>
    intro j bi bd hdrop hbij hbilen hbd hmin htie
    have hj : zl.length ≤ j := by
      by_contra hlt
      push_neg at hlt
      have : zl.drop j ≠ [] := by
        intro hnil
        have := List.drop_eq_nil_iff.mp hnil
        omega
      exact this hdrop
    simp only [closestZoomGo]
    refine ⟨hbilen, ?_, ?_⟩
    · intro k hk
      rw [← hbd]
      exact hmin k (by omega)
    · intro k hk heq
      rw [← hbd] at heq
      exact htie k (by omega) heq
  | cons z rest ih =>
    intro j bi bd hdrop hbij hbilen hbd hmin htie
    have hjlen : j < zl.length := by
      by_contra hge
      push_neg at hge
      rw [List.drop_eq_nil_iff.mpr hge] at hdrop
      cases hdrop
    have hz : zl[j]? = some z := by
      have h0 : (zl.drop j)[0]? = zl[j + 0]? := List.getElem?_drop zl j 0
      rw [hdrop] at h0
      simpa using h0.symm
    have hzD : zl.getD j 0 = z := by
      simp [List.getD, hz]
    have hdrop1 : zl.drop (j + 1) = rest := by
      have : zl.drop (j + 1) = (zl.drop j).drop 1 := by
        rw [List.drop_drop]
      rw [this, hdrop]
      rfl
    simp only [closestZoomGo]
    by_cases hlt : (z - target).natAbs < bd
    · rw [if_pos hlt]
      refine ih (j + 1) j ((z - target).natAbs) hdrop1 (by omega) hjlen ?_ ?_ ?_
      · simp [zoomDist, List.getD, hz]
      · intro k hk
        rcases Nat.lt_or_ge k j with hkj | hkj
        · have := hmin k hkj
          omega
        · have hkj' : k = j := by omega
          subst hkj'
          simp [zoomDist, List.getD, hz]
      · intro k hk heq
        rcases Nat.lt_or_ge k j with hkj | hkj
        · exfalso
          have := hmin k hkj
          omega
        · omega
    · rw [if_neg hlt]
      refine ih (j + 1) bi bd hdrop1 (by omega) hbilen hbd ?_ ?_
      · intro k hk
        rcases Nat.lt_or_ge k j with hkj | hkj
        · exact hmin k hkj
        · have hkj' : k = j := by omega
          subst hkj'
          simp only [zoomDist, List.getD, List.get?_eq_getElem?, hz, Option.getD_some]
          omega
      · intro k hk heq
        rcases Nat.lt_or_ge k j with hkj | hkj
        · exact htie k hkj heq
        · omega

/-- C9: for every nonempty zoom table and target samples-per-pixel, the
nearest-zoom-index lookup returns an in-range index whose entry has the
smallest absolute difference to the target; ties are broken in favour of
the lower index (first occurrence). -/
theorem C9_findClosestZoomIndex_nearest (target : Int) (zl : List Int) (hne : zl ≠ []) :
    findClosestZoomIndex target zl < zl.length ∧
      (∀ k, k < zl.length →
        zoomDist target zl (findClosestZoomIndex target zl) ≤ zoomDist target zl k) ∧
      (∀ k, k < zl.length →
        zoomDist target zl k = zoomDist target zl (findClosestZoomIndex target zl) →
        findClosestZoomIndex target zl ≤ k) := by
  rcases zl with _ | ⟨z0, rest⟩
  · exact absurd rfl hne
  show closestZoomGo target rest 1 0 ((z0 - target).natAbs) < (z0 :: rest).length ∧ _
  have := closestZoomGo_spec target (z0 :: rest) rest 1 0 ((z0 - target).natAbs)
    (by rfl) (by omega) (by simp) (by simp [zoomDist]) ?_ ?_
  · exact this
  · intro k hk
    have hk0 : k = 0 := by omega
    subst hk0
    simp [zoomDist]
  · intro k hk _
    omega

/-- C9: witness evaluating `C9_findClosestZoomIndex_nearest` on the default
zoom table with target 999 (closest entry 1024 at index 2). -/
theorem C9_witness :
    ([256, 512, 1024, 2048, 4096, 8192] ≠ ([] : List Int)) ∧
      (findClosestZoomIndex 999 [256, 512, 1024, 2048, 4096, 8192] <
          ([256, 512, 1024, 2048, 4096, 8192] : List Int).length ∧
        (∀ k, k < ([256, 512, 1024, 2048, 4096, 8192] : List Int).length →
          zoomDist 999 [256, 512, 1024, 2048, 4096, 8192]
              (findClosestZoomIndex 999 [256, 512, 1024, 2048, 4096, 8192]) ≤
            zoomDist 999 [256, 512, 1024, 2048, 4096, 8192] k) ∧
        (∀ k, k < ([256, 512, 1024, 2048, 4096, 8192] : List Int).length →
          zoomDist 999 [256, 512, 1024, 2048, 4096, 8192] k =
            zoomDist 999 [256, 512, 1024, 2048, 4096, 8192]
              (findClosestZoomIndex 999 [256, 512, 1024, 2048, 4096, 8192]) →
          findClosestZoomIndex 999 [256, 512, 1024, 2048, 4096, 8192] ≤ k)) ∧
      findClosestZoomIndex 999 [256, 512, 1024, 2048, 4096, 8192] = 2 :=
  ⟨by decide,
    C9_findClosestZoomIndex_nearest 999 [256, 512, 1024, 2048, 4096, 8192] (by decide),
    by decide⟩

/-- The single clip record a committed trim writes back: a left trim moves
`startSample` and `offsetSamples` forward by the constrained delta and
shrinks `durationSamples` by it; a right trim only grows `durationSamples`
by it.  All other fields are carried over unchanged. -/
def trimmedClip (clip : AudioClip) (boundary : Boundary) (dlt : Int) : AudioClip :=
  match boundary with
  | .left =>
    { clip with
      startSample := clip.startSample + dlt
      offsetSamples := clip.offsetSamples + dlt
      durationSamples := clip.durationSamples - dlt }
  | .right => { clip with durationSamples := clip.durationSamples + dlt }

theorem find?_append_cons {p : ClipTrack → Bool} (pre : List ClipTrack)
    (t : ClipTrack) (post : List ClipTrack)
    (hpre : ∀ b ∈ pre, p b = false) (ht : p t = true) :
    (pre ++ t :: post).find? p = some t := by
  induction pre with
  | nil => simp [List.find?_cons_of_pos _ ht]
  | cons x xs ih =>
    rw [List.cons_append, List.find?_cons_of_neg _ (by simp [hpre x (by simp)])]
    exact ih (fun b hb => hpre b (List.mem_cons_of_mem x hb))

theorem findClipIndex_append_cons {cid : String} (cpre : List AudioClip)
    (c : AudioClip) (cpost : List AudioClip)
    (hpre : ∀ b ∈ cpre, b.id ≠ cid) (hc : c.id = cid) :
    findClipIndex (cpre ++ c :: cpost) cid = some (cpre.length, c) := by
  induction cpre with
  | nil => simp [findClipIndex, hc]
  | cons x xs ih =>
    rw [List.cons_append]
    simp only [findClipIndex, if_neg (hpre x (by simp))]
    rw [ih (fun b hb => hpre b (List.mem_cons_of_mem x hb))]
    simp

theorem map_noMatch (tid : String) (g : ClipTrack → ClipTrack)
    (l : List ClipTrack) (h : ∀ t ∈ l, t.id ≠ tid) :
    l.map (fun t => if t.id = tid then g t else t) = l := by
  induction l with
  | nil => rfl
  | cons x xs ih =>
    rw [List.map_cons, if_neg (h x (by simp)), ih (fun t ht => h t (List.mem_cons_of_mem x ht))]

def c10wTrack : ClipTrack :=
  mkBareTrack "t1"
    [mkBareClip "c1" 0 44100 0 441000, mkBareClip "c2" 88200 44100 0 441000]

def c10wEngine : Engine := mkEngine [c10wTrack] 0

/-- C10: a committed `trimClip` (constrained delta nonzero) rewrites
exactly the found clip of the found track to `trimmedClip` — a left trim
adds the constrained delta to `startSample` and `offsetSamples` and
subtracts it from `durationSamples` (leaving the end position unchanged), a
right trim changes only `durationSamples` — while every other field of the
clip, every other clip of the track, every other track, and all remaining
engine fields are unchanged, and a `statechange` is emitted. -/
theorem C10_trimClip_frame (e : Engine) (tid cid : String) (boundary : Boundary)
    (d : Int) (pre post : List ClipTrack) (track : ClipTrack)
    (cpre cpost : List AudioClip) (clip : AudioClip)
    (htr : e.tracks = pre ++ track :: post)
    (hpreT : ∀ t ∈ pre, t.id ≠ tid) (hpostT : ∀ t ∈ post, t.id ≠ tid)
    (htid : track.id = tid)
    (hclips : track.clips = cpre ++ clip :: cpost)
    (hpreC : ∀ c ∈ cpre, c.id ≠ cid) (hcid : clip.id = cid)
    (hz : constrainBoundaryTrim clip d boundary (sortClipsByTime track.clips)
      ((sortClipsByTime track.clips).findIdx (fun c => c.id = cid))
      (minDurationSamples e.sampleRate) ≠ 0) :
    (e.trimClip tid cid boundary d).2 = true ∧
      (e.trimClip tid cid boundary d).1 = { e with tracks :=
        (pre ++ { track with clips := (cpre ++
          (trimmedClip clip boundary
            (constrainBoundaryTrim clip d boundary (sortClipsByTime track.clips)
              ((sortClipsByTime track.clips).findIdx (fun c => c.id = cid))
              (minDurationSamples e.sampleRate))) :: cpost) } :: post) } ∧
      (boundary = Boundary.left →
        clipEnd (trimmedClip clip boundary
          (constrainBoundaryTrim clip d boundary (sortClipsByTime track.clips)
            ((sortClipsByTime track.clips).findIdx (fun c => c.id = cid))
            (minDurationSamples e.sampleRate))) = clipEnd clip) := by
  have hf : e.tracks.find? (fun t => t.id = tid) = some track := by
    rw [htr]
    refine find?_append_cons pre track post ?_ (by simp [htid])
    intro b hb
    simp [hpreT b hb]
  have hfc : findClipIndex track.clips cid = some (cpre.length, clip) := by
    rw [hclips]
    exact findClipIndex_append_cons cpre clip cpost hpreC hcid
  have hf2 : e.tracks.find? (fun t => t.id = tid) = some track := hf
  cases boundary with
  | left =>
    have hmap : mapWithIndex (fun i c =>
        if i = cpre.length then
          { c with
            startSample := c.startSample +
              (constrainBoundaryTrim clip d Boundary.left (sortClipsByTime track.clips)
                ((sortClipsByTime track.clips).findIdx (fun c2 => c2.id = cid))
                (minDurationSamples e.sampleRate))
            offsetSamples := c.offsetSamples +
              (constrainBoundaryTrim clip d Boundary.left (sortClipsByTime track.clips)
                ((sortClipsByTime track.clips).findIdx (fun c2 => c2.id = cid))
                (minDurationSamples e.sampleRate))
            durationSamples := c.durationSamples -
              (constrainBoundaryTrim clip d Boundary.left (sortClipsByTime track.clips)
                ((sortClipsByTime track.clips).findIdx (fun c2 => c2.id = cid))
                (minDurationSamples e.sampleRate)) }
        else c) track.clips = (cpre ++
          (trimmedClip clip Boundary.left
            (constrainBoundaryTrim clip d Boundary.left (sortClipsByTime track.clips)
              ((sortClipsByTime track.clips).findIdx (fun c => c.id = cid))
              (minDurationSamples e.sampleRate))) :: cpost) := by
      rw [hclips]
      exact mapWithIndex_ite _ cpre clip cpost
    have hmain : e.trimClip tid cid Boundary.left d = ({ e with tracks :=
        (pre ++ { track with clips := (cpre ++
          (trimmedClip clip Boundary.left
            (constrainBoundaryTrim clip d Boundary.left (sortClipsByTime track.clips)
              ((sortClipsByTime track.clips).findIdx (fun c => c.id = cid))
              (minDurationSamples e.sampleRate))) :: cpost) } :: post) }, true) := by
      simp only [Engine.trimClip, hf, hfc]
      rw [if_neg hz]
      refine congrArg (fun ts => ({ e with tracks := ts }, true)) ?_
      rw [htr, List.map_append, List.map_cons,
        map_noMatch tid _ pre hpreT, map_noMatch tid _ post hpostT, if_pos htid]
      refine congrArg (fun cs => pre ++ { track with clips := cs } :: post) ?_
      exact hmap
    refine ⟨by rw [hmain], by rw [hmain], ?_⟩
    intro _
    show (clip.startSample + _) + (clip.durationSamples - _) = clipEnd clip
    unfold clipEnd
    omega
  | right =>
    have hmap : mapWithIndex (fun i c =>
        if i = cpre.length then
          { c with durationSamples := c.durationSamples +
              (constrainBoundaryTrim clip d Boundary.right (sortClipsByTime track.clips)
                ((sortClipsByTime track.clips).findIdx (fun c2 => c2.id = cid))
                (minDurationSamples e.sampleRate)) }
        else c) track.clips = (cpre ++
          (trimmedClip clip Boundary.right
            (constrainBoundaryTrim clip d Boundary.right (sortClipsByTime track.clips)
              ((sortClipsByTime track.clips).findIdx (fun c => c.id = cid))
              (minDurationSamples e.sampleRate))) :: cpost) := by
      rw [hclips]
      exact mapWithIndex_ite _ cpre clip cpost
    have hmain : e.trimClip tid cid Boundary.right d = ({ e with tracks :=
        (pre ++ { track with clips := (cpre ++
          (trimmedClip clip Boundary.right
            (constrainBoundaryTrim clip d Boundary.right (sortClipsByTime track.clips)
              ((sortClipsByTime track.clips).findIdx (fun c => c.id = cid))
              (minDurationSamples e.sampleRate))) :: cpost) } :: post) }, true) := by
      simp only [Engine.trimClip, hf, hfc]
      rw [if_neg hz]
      refine congrArg (fun ts => ({ e with tracks := ts }, true)) ?_
      rw [htr, List.map_append, List.map_cons,
        map_noMatch tid _ pre hpreT, map_noMatch tid _ post hpostT, if_pos htid]
      refine congrArg (fun cs => pre ++ { track with clips := cs } :: post) ?_
      exact hmap
    refine ⟨by rw [hmain], by rw [hmain], ?_⟩
    intro hb
    cases hb

/-- C10: witness instantiating `C10_trimClip_frame` with a right trim of
−22050 samples on the first of two clips. -/
theorem C10_witness :
    (c10wEngine.tracks = [] ++ c10wTrack :: [] ∧
      c10wTrack.id = "t1" ∧
      c10wTrack.clips = [] ++ mkBareClip "c1" 0 44100 0 441000 ::
        [mkBareClip "c2" 88200 44100 0 441000] ∧
      (mkBareClip "c1" 0 44100 0 441000).id = "c1" ∧
      constrainBoundaryTrim (mkBareClip "c1" 0 44100 0 441000) (-22050) Boundary.right
        (sortClipsByTime c10wTrack.clips)
        ((sortClipsByTime c10wTrack.clips).findIdx (fun c => c.id = "c1"))
        (minDurationSamples c10wEngine.sampleRate) ≠ 0) ∧
      ((c10wEngine.trimClip "t1" "c1" Boundary.right (-22050)).2 = true ∧
        (c10wEngine.trimClip "t1" "c1" Boundary.right (-22050)).1 =
          { c10wEngine with tracks :=
            ([] ++ { c10wTrack with clips := ([] ++
              (trimmedClip (mkBareClip "c1" 0 44100 0 441000) Boundary.right
                (constrainBoundaryTrim (mkBareClip "c1" 0 44100 0 441000) (-22050)
                  Boundary.right (sortClipsByTime c10wTrack.clips)
                  ((sortClipsByTime c10wTrack.clips).findIdx (fun c => c.id = "c1"))
                  (minDurationSamples c10wEngine.sampleRate))) ::
                [mkBareClip "c2" 88200 44100 0 441000]) } :: []) } ∧
        (Boundary.right = Boundary.left →
          clipEnd (trimmedClip (mkBareClip "c1" 0 44100 0 441000) Boundary.right
            (constrainBoundaryTrim (mkBareClip "c1" 0 44100 0 441000) (-22050)
              Boundary.right (sortClipsByTime c10wTrack.clips)
              ((sortClipsByTime c10wTrack.clips).findIdx (fun c => c.id = "c1"))
              (minDurationSamples c10wEngine.sampleRate))) =
            clipEnd (mkBareClip "c1" 0 44100 0 441000))) := by
  refine ⟨⟨by decide, by decide, by decide, by decide, by decide⟩, ?_⟩
  exact C10_trimClip_frame c10wEngine "t1" "c1" Boundary.right (-22050)
    [] [] c10wTrack [] [mkBareClip "c2" 88200 44100 0 441000]
    (mkBareClip "c1" 0 44100 0 441000)
    (by decide) (by simp) (by simp) (by decide) (by decide) (by simp) (by decide)
    (by decide)

/-- The stale exact-match-or-middle `findClosestZoomIndex` disagrees with the
current nearest-entry implementation on the repository's own test input
(target 999 over the default zoom table): it returns the middle index 3 where
the current version returns the nearest index 2. -/
theorem findClosestZoomIndexLegacy_differs :
    findClosestZoomIndexLegacy 999 [256, 512, 1024, 2048, 4096, 8192] = 3 ∧
      findClosestZoomIndex 999 [256, 512, 1024, 2048, 4096, 8192] = 2 := by decide
